import Mathlib

/-!
# Autoregressive wavy-surface generator: verification development

Shallow embedding of `voodoo.hh`, `autoreg.hh`, `sysv.hh` and the parameter
validation of `autoreg_driver.hh`.

Modelling conventions.

* The scalar type `T` of the templates is exact arithmetic: `ℚ` where the code
  computes, an arbitrary type where it only moves values around.
* `blitz::Array<T,3>` is a shape together with its row-major storage
  (`Array3`); `a(i,j,k)` reads storage cell `(i*n1 + j)*n2 + k`.
* `blitz::Array<T,2>` is a shape together with its entry map (`Array2D`).
* `for (int i = 0; i < n; ++i)` loops are `for_loop` (may throw) and
  `for_pure`; `assert` and `throw` are results in `Except Error`.
* Array accesses are total (`Array3.get` reads a default outside the storage);
  `generate_zeta_checked` repeats `generate_zeta` with `int` indices and a range
  check at every access.
-/

namespace autoreg

/-- Every way the embedded code can stop without a result. -/
inductive Error where
  | assertion_failed
  | sysv_error (info : Int)
  | not_stationary
  | variance_negative
  | noise_nan
  | invalid_size (var_name : String)
  | zsize2_lt_zsize
  | fsize_gt_zsize
  | bad_slice
  | index_out_of_range
  deriving DecidableEq, Repr

/-- The loop `for (int i = 0; i < n; ++i) body(i)` over a state, where the
body may throw. -/
def for_loop {σ : Type} (n : Nat) (body : Nat → σ → Except Error σ) (init : σ) :
    Except Error σ :=
  match n with
  | 0 => pure init
  | k + 1 => for_loop k body init >>= body k

/-- The loop `for (int i = 0; i < n; ++i) body(i)` over a state. -/
def for_pure {σ : Type} (n : Nat) (body : Nat → σ → σ) (init : σ) : σ :=
  match n with
  | 0 => init
  | k + 1 => body k (for_pure k body init)

/-- Model of `blitz::Array<T,3>`: the three extents and the row-major storage. -/
structure Array3 (α : Type) where
  n0 : Nat
  n1 : Nat
  n2 : Nat
  data : List α

namespace Array3

variable {α : Type}

/-- Number of elements implied by the shape (`numElements()`). -/
def numElements (a : Array3 α) : Nat := a.n0 * a.n1 * a.n2

/-- Storage offset of the cell `(i,j,k)` (row-major, innermost axis fastest). -/
def lin (a : Array3 α) (i j k : Nat) : Nat := (i * a.n1 + j) * a.n2 + k

/-- Element access `a(i,j,k)`. -/
def get [Inhabited α] (a : Array3 α) (i j k : Nat) : α :=
  a.data.getD (a.lin i j k) default

/-- Element store `a(i,j,k) = v`. -/
def set (a : Array3 α) (i j k : Nat) (v : α) : Array3 α :=
  { a with data := a.data.set (a.lin i j k) v }

/-- The storage has exactly as many cells as the shape says. -/
def WF (a : Array3 α) : Prop := a.data.length = a.n0 * a.n1 * a.n2

instance (a : Array3 α) : Decidable a.WF := by
  unfold WF
  infer_instance

end Array3

/-- Model of `blitz::Array<T,2>`: the two extents and the entry map. -/
structure Array2D (α : Type) where
  rows : Nat
  columns : Nat
  get : Nat → Nat → α

namespace Array2D

variable {α : Type}

/-- Number of elements (`numElements()`). -/
def numElements (a : Array2D α) : Nat := a.rows * a.columns

/-- A default-constructed (empty) array. -/
def empty [Inhabited α] : Array2D α := ⟨0, 0, fun _ _ => default⟩

end Array2D

section voodoo

variable {α : Type} [Inhabited α]

/-- The value `std::abs(i-j)` for two `int` loop counters. -/
def abs_diff (i j : Nat) : Nat := Int.natAbs ((i : Int) - (j : Int))

/-- Innermost block `AC_matrix_block(acf, i0, j0)` of `voodoo.hh`. -/
def AC_matrix_block3 (acf : Array3 α) (i0 j0 : Nat) : Array2D α :=
  { rows := acf.n2
    columns := acf.n2
    get := fun i j => acf.get i0 j0 (abs_diff i j) }

/-- Function `append_column_block` of `voodoo.hh`; the result is the new `lhs`. -/
def append_column_block (lhs rhs : Array2D α) : Except Error (Array2D α) :=
  if lhs.numElements = 0 then
    pure rhs
  else if lhs.rows ≠ rhs.rows then
    throw Error.assertion_failed
  else
    pure { rows := lhs.rows
           columns := lhs.columns + rhs.columns
           get := fun i j =>
             if j < lhs.columns then lhs.get i j else rhs.get i (j - lhs.columns) }

/-- Function `append_row_block` of `voodoo.hh`; the result is the new `lhs`. -/
def append_row_block (lhs rhs : Array2D α) : Except Error (Array2D α) :=
  if lhs.numElements = 0 then
    pure rhs
  else if lhs.columns ≠ rhs.columns then
    throw Error.assertion_failed
  else
    pure { rows := lhs.rows + rhs.rows
           columns := lhs.columns
           get := fun i j =>
             if i < lhs.rows then lhs.get i j else rhs.get (i - lhs.rows) j }

/-- Middle block `AC_matrix_block(acf, i0)` of `voodoo.hh`. -/
def AC_matrix_block2 (acf : Array3 α) (i0 : Nat) : Except Error (Array2D α) :=
  for_loop acf.n1 (fun i result => do
    let row ← for_loop acf.n1 (fun j row =>
      append_column_block row (AC_matrix_block3 acf i0 (abs_diff i j))) Array2D.empty
    append_row_block result row) Array2D.empty

/-- Function `generate_AC_matrix` of `voodoo.hh`. -/
def generate_AC_matrix (acf : Array3 α) : Except Error (Array2D α) :=
  for_loop acf.n0 (fun i result => do
    let row ← for_loop acf.n0 (fun j row => do
      let block ← AC_matrix_block2 acf (abs_diff i j)
      append_column_block row block) Array2D.empty
    append_row_block result row) Array2D.empty

end voodoo


section autoreg_hh

/-- Function `white_noise_variance` of `autoreg.hh`: `acf(0,0,0) - sum(ar_coefs * acf)`,
the product being elementwise over the storage. -/
def white_noise_variance (ar_coefs acf : Array3 ℚ) : ℚ :=
  acf.get 0 0 0 - (List.zipWith (fun a b => a * b) ar_coefs.data acf.data).sum

/-- Function `ACF_variance` of `autoreg.hh`. -/
def ACF_variance (acf : Array3 ℚ) : ℚ := acf.get 0 0 0

/-- Function `is_stationary` of `autoreg.hh`: `!any(abs(phi) > 1)`. -/
def is_stationary (phi : Array3 ℚ) : Bool :=
  !(phi.data.any (fun v => decide (|v| > 1)))

/-- Function `check_info` of `sysv.hh`. -/
def check_info (info : Int) : Except Error Unit :=
  if info ≠ 0 then throw (Error.sysv_error info) else pure ()

/-- Function `sysv` of `sysv.hh`. The LAPACK routine `xsysv_` is external: it is
given the order `m`, the matrix and the right-hand side, and hands back `info`
and the right-hand side buffer it has overwritten. -/
def sysv (xsysv_ : Nat → Array2D ℚ → List ℚ → Int × List ℚ) (m : Nat) (a : Array2D ℚ)
    (b : List ℚ) : Except Error (List ℚ) := do
  let r := xsysv_ m a b
  check_info r.1
  pure r.2

/-- The call `std::copy_n(src, n, dst + off)` on storage. -/
def copy_n {α : Type} [Inhabited α] (src : List α) (n : Nat) (dst : List α) (off : Nat) :
    List α :=
  for_pure n (fun a d => d.set (off + a) (src.getD a default)) dst

/-- Right-hand side `acm(Range(1, toEnd), 0)` of the Yule-Walker system. -/
def yw_rhs (acm : Array2D ℚ) (m : Nat) : List ℚ :=
  (List.range m).map (fun a => acm.get (a + 1) 0)

/-- Left-hand side `acm(Range(1, toEnd), Range(1, toEnd))` of the Yule-Walker system. -/
def yw_lhs (acm : Array2D ℚ) (m : Nat) : Array2D ℚ :=
  { rows := m, columns := m, get := fun a b => acm.get (a + 1) (b + 1) }

/-- A freshly constructed array of the given shape (contents not yet assigned). -/
def Array3.alloc {α : Type} [Inhabited α] (n0 n1 n2 : Nat) : Array3 α :=
  ⟨n0, n1, n2, List.replicate (n0 * n1 * n2) default⟩

/-- Function `compute_AR_coefs` of `autoreg.hh`. -/
def compute_AR_coefs (xsysv_ : Nat → Array2D ℚ → List ℚ → Int × List ℚ) (acf : Array3 ℚ) :
    Except Error (Array3 ℚ) := do
  let m := acf.numElements - 1
  let acm ← generate_AC_matrix acf
  let rhs := yw_rhs acm m
  let lhs := yw_lhs acm m
  if lhs.rows ≠ m then throw Error.assertion_failed
  if lhs.columns ≠ m then throw Error.assertion_failed
  if rhs.length ≠ m then throw Error.assertion_failed
  let rhs ← sysv xsysv_ m lhs rhs
  let phi : Array3 ℚ := Array3.alloc acf.n0 acf.n1 acf.n2
  if phi.numElements ≠ m + 1 then throw Error.assertion_failed
  let phi := phi.set 0 0 0 0
  let phi := { phi with data := copy_n rhs m phi.data 1 }
  if !is_stationary phi then throw Error.not_stationary
  pure phi

end autoreg_hh

section field_synthesis

/-- The accumulator `sum` of `generate_zeta` for the cell `(t,x,y)`: the three inner
loops over `k < m1`, `i < m2`, `j < m3`. The indices `t-k`, `x-i`, `y-j` are never
negative there because `k ≤ t`, `i ≤ x`, `j ≤ y`. -/
def zeta_sum (phi zeta : Array3 ℚ) (t x y : Nat) : ℚ :=
  let m1 := min (t + 1) phi.n0
  let m2 := min (x + 1) phi.n1
  let m3 := min (y + 1) phi.n2
  for_pure m1 (fun k sum =>
    for_pure m2 (fun i sum =>
      for_pure m3 (fun j sum =>
        sum + phi.get k i j * zeta.get (t - k) (x - i) (y - j)) sum) sum) 0

/-- Body of the three outer loops of `generate_zeta`: `zeta(t,x,y) += sum`. -/
def zeta_cell (phi zeta : Array3 ℚ) (t x y : Nat) : Array3 ℚ :=
  zeta.set t x y (zeta.get t x y + zeta_sum phi zeta t x y)

/-- Function `generate_zeta` of `autoreg.hh`; the result is `zeta` after the in-place
update. -/
def generate_zeta (phi zeta : Array3 ℚ) : Array3 ℚ :=
  let t1 := zeta.n0
  let x1 := zeta.n1
  let y1 := zeta.n2
  for_pure t1 (fun t zeta =>
    for_pure x1 (fun x zeta =>
      for_pure y1 (fun y zeta => zeta_cell phi zeta t x y) zeta) zeta) zeta

/-- Right-hand side of the recurrence for the cell `(t,x,y)`: the noise plus the clamped
filter sum, reading `z` at the earlier cells and the noise at the cell itself. -/
def zeta_recurrence (phi eps z : Array3 ℚ) (t x y : Nat) : ℚ :=
  eps.get t x y +
    ∑ k ∈ Finset.range (min (t + 1) phi.n0), ∑ i ∈ Finset.range (min (x + 1) phi.n1),
      ∑ j ∈ Finset.range (min (y + 1) phi.n2),
        phi.get k i j *
          (if k = 0 ∧ i = 0 ∧ j = 0 then eps.get t x y else z.get (t - k) (x - i) (y - j))

/-- Loop invariant of `generate_zeta` once the cells with storage offset below `p` have
been processed: those cells satisfy the recurrence and the others still hold the noise. -/
def zeta_inv (phi eps z : Array3 ℚ) (p : Nat) : Prop :=
  (z.n0 = eps.n0 ∧ z.n1 = eps.n1 ∧ z.n2 = eps.n2) ∧
  z.data.length = eps.data.length ∧
  (∀ t x y, x < eps.n1 → y < eps.n2 → (t * eps.n1 + x) * eps.n2 + y < p →
    z.get t x y = zeta_recurrence phi eps z t x y) ∧
  (∀ q, p ≤ q → z.data.getD q 0 = eps.data.getD q 0)

end field_synthesis

/-- Model of `size3` (`blitz::TinyVector<int,3>`). -/
structure size3 where
  s0 : Int
  s1 : Int
  s2 : Int
  deriving DecidableEq, Repr

/-- Component access `sz[i]` / `sz(i)` for `i = 0, 1, 2`. -/
def size3.get (sz : size3) (i : Nat) : Int :=
  match i with
  | 0 => sz.s0
  | 1 => sz.s1
  | _ => sz.s2

section trimming

variable {α : Type} [Inhabited α]

/-- The array of shape `(n0,n1,n2)` whose cell `(i,j,k)` holds `f i j k`, stored
row-major. -/
def Array3.ofFn (n0 n1 n2 : Nat) (f : Nat → Nat → Nat → α) : Array3 α :=
  ⟨n0, n1, n2,
    (List.range (n0 * n1 * n2)).map (fun p => f (p / (n1 * n2)) (p / n2 % n1) (p % n2))⟩

/-- The blitz subarray `a(Range(f0,toEnd), Range(f1,toEnd), Range(f2,toEnd))`: on each
axis the first index must lie inside the axis (blitz checks `0 ≤ first ≤ last < extent`
with `last = extent - 1`), the new extent is `extent - first`, and cell `(i,j,k)` of the
result is cell `(i+f0, j+f1, k+f2)` of `a`. -/
def Array3.slice_to_end (a : Array3 α) (f0 f1 f2 : Int) : Except Error (Array3 α) :=
  if 0 ≤ f0 ∧ f0 < a.n0 ∧ 0 ≤ f1 ∧ f1 < a.n1 ∧ 0 ≤ f2 ∧ f2 < a.n2 then
    pure (Array3.ofFn (a.n0 - f0.toNat) (a.n1 - f1.toNat) (a.n2 - f2.toNat)
      (fun i j k => a.get (i + f0.toNat) (j + f1.toNat) (k + f2.toNat)))
  else
    throw Error.bad_slice

/-- Function `trim_zeta` of `autoreg.hh`. -/
def trim_zeta (zeta2 : Array3 α) (zsize : size3) : Except Error (Array3 α) :=
  let zsize2 : size3 := ⟨zeta2.n0, zeta2.n1, zeta2.n2⟩
  zeta2.slice_to_end (zsize2.get 0 - zsize.get 0) (zsize2.get 1 - zsize.get 1)
    (zsize2.get 2 - zsize.get 2)

end trimming

section noise

/-- Function `generate_white_noise` of `autoreg.hh`. The scalar type is any linearly
ordered type; `isnan` is the external `std::isnan`, and `draws p` is the `p`-th value
produced by the external generator bound to the normal distribution, which
`std::generate` stores in cell `p` of the storage. -/
def generate_white_noise {α : Type} [LinearOrder α] [Zero α] (isnan : α → Bool)
    (draws : Nat → α) (size : size3) (variance : α) : Except Error (Array3 α) :=
  if variance < 0 then
    throw Error.variance_negative
  else
    let n0 := (size.get 0).toNat
    let n1 := (size.get 1).toNat
    let n2 := (size.get 2).toNat
    let eps : Array3 α := ⟨n0, n1, n2, (List.range (n0 * n1 * n2)).map draws⟩
    if eps.data.any isnan then
      throw Error.noise_nan
    else
      pure eps

end noise

section driver

/-- The value of an `int` expression after wrap-around to 32 bits. -/
def wrap32 (x : Int) : Int := (x + 2 ^ 31) % 2 ^ 32 - 2 ^ 31

/-- The value `blitz::product(sz)` for a `size3`, computed in `int`. -/
def size3.product (sz : size3) : Int := wrap32 (wrap32 (sz.s0 * sz.s1) * sz.s2)

/-- Model of `Vector<T,3>` for the grid steps. -/
structure Vec3 where
  v0 : ℚ
  v1 : ℚ
  v2 : ℚ
  deriving DecidableEq

/-- The value `blitz::product(v)` for a `Vector<T,3>`. -/
def Vec3.product (v : Vec3) : ℚ := v.v0 * v.v1 * v.v2

/-- The data members of `Autoreg_model` of `autoreg_driver.hh`. -/
structure Autoreg_model where
  zsize : size3
  zdelta : Vec3
  acf_size : size3
  acf_delta : Vec3
  fsize : size3
  zsize2 : size3
  alpha : ℚ
  beta : ℚ
  gamm : ℚ

/-- Member `check_non_zero` of `Autoreg_model`, for a `size3`. -/
def check_non_zero (sz : size3) (var_name : String) : Except Error Unit :=
  if sz.product = 0 then throw (Error.invalid_size var_name) else pure ()

/-- Member `check_non_zero` of `Autoreg_model`, for a `Vector<T,3>`. -/
def check_non_zero_T (v : Vec3) (var_name : String) : Except Error Unit :=
  if v.product = 0 then throw (Error.invalid_size var_name) else pure ()

/-- Member `validate_parameters` of `Autoreg_model`. -/
def validate_parameters (m : Autoreg_model) : Except Error Unit := do
  check_non_zero m.zsize "zsize"
  check_non_zero_T m.zdelta "zdelta"
  check_non_zero m.acf_size "acf_size"
  for_loop 3 (fun i _ =>
    if m.zsize2.get i < m.zsize.get i then throw Error.zsize2_lt_zsize else pure ()) ()
  let part_sz := m.zsize.get 0
  let fsize_t := m.fsize.get 0
  if fsize_t > part_sz then throw Error.fsize_gt_zsize
  pure ()

end driver


section statistics

/-- Function `mean` of `autoreg.hh`: `sum(rhs) / rhs.numElements()`. -/
def mean (rhs : Array3 ℚ) : ℚ := rhs.data.sum / (rhs.numElements : ℚ)

/-- Function `variance` of `autoreg.hh`: the `assert`, then
`sum(pow(rhs - m, 2)) / (rhs.numElements() - 1)`. -/
def variance (rhs : Array3 ℚ) : Except Error ℚ :=
  if ¬ rhs.numElements > 0 then
    throw Error.assertion_failed
  else
    let m := mean rhs
    pure ((rhs.data.map (fun v => (v - m) ^ 2)).sum / (((rhs.numElements : Int) - 1 : Int) : ℚ))

end statistics

section checked_access

/-- Element read `a(i,j,k)` with `int` indices under the range check that blitz makes in
debug mode: every index must lie in `0 ≤ index < extent`. -/
def Array3.read (a : Array3 ℚ) (i j k : Int) : Except Error ℚ :=
  if 0 ≤ i ∧ i < a.n0 ∧ 0 ≤ j ∧ j < a.n1 ∧ 0 ≤ k ∧ k < a.n2 then
    pure (a.get i.toNat j.toNat k.toNat)
  else
    throw Error.index_out_of_range

/-- Update `a(i,j,k) += v` with `int` indices under the same range check. -/
def Array3.add_at (a : Array3 ℚ) (i j k : Int) (v : ℚ) : Except Error (Array3 ℚ) :=
  if 0 ≤ i ∧ i < a.n0 ∧ 0 ≤ j ∧ j < a.n1 ∧ 0 ≤ k ∧ k < a.n2 then
    pure (a.set i.toNat j.toNat k.toNat (a.get i.toNat j.toNat k.toNat + v))
  else
    throw Error.index_out_of_range

/-- The accumulator `sum` of `generate_zeta` for the cell `(t,x,y)`, every array access
range-checked and the indices `t-k`, `x-i`, `y-j` computed in `int`. -/
def zeta_sum_checked (phi zeta : Array3 ℚ) (t x y : Nat) : Except Error ℚ :=
  let m1 := min (t + 1) phi.n0
  let m2 := min (x + 1) phi.n1
  let m3 := min (y + 1) phi.n2
  for_loop m1 (fun k sum =>
    for_loop m2 (fun i sum =>
      for_loop m3 (fun j sum => do
        let a ← phi.read k i j
        let b ← zeta.read ((t : Int) - k) ((x : Int) - i) ((y : Int) - j)
        pure (sum + a * b)) sum) sum) 0

/-- Body of the three outer loops of `generate_zeta`, every array access range-checked. -/
def zeta_cell_checked (phi zeta : Array3 ℚ) (t x y : Nat) : Except Error (Array3 ℚ) := do
  let sum ← zeta_sum_checked phi zeta t x y
  zeta.add_at t x y sum

/-- Function `generate_zeta` of `autoreg.hh` with every array access range-checked: it
stops with `index_out_of_range` at the first access outside an array. -/
def generate_zeta_checked (phi zeta : Array3 ℚ) : Except Error (Array3 ℚ) :=
  let t1 := zeta.n0
  let x1 := zeta.n1
  let y1 := zeta.n2
  for_loop t1 (fun t zeta =>
    for_loop x1 (fun x zeta =>
      for_loop y1 (fun y zeta => zeta_cell_checked phi zeta t x y) zeta) zeta) zeta

end checked_access

section voodoo_proofs

variable {α : Type} [Inhabited α]

theorem for_loop_succ {σ : Type} (n : Nat) (body : Nat → σ → Except Error σ) (init : σ) :
    for_loop (n + 1) body init = for_loop n body init >>= body n := rfl

theorem abs_diff_comm (i j : Nat) : abs_diff i j = abs_diff j i := by
  unfold abs_diff; omega

theorem abs_diff_self (i : Nat) : abs_diff i i = 0 := by
  unfold abs_diff; omega

theorem abs_diff_lt {n i j : Nat} (hi : i < n) (hj : j < n) : abs_diff i j < n := by
  unfold abs_diff; omega

/-- Invariant of a loop that appends the blocks `B 0, …, B (n-1)` as columns. -/
theorem column_loop_spec (r c : Nat) (hr : 0 < r) (hc : 0 < c)
    (body : Nat → Array2D α → Except Error (Array2D α)) (B : Nat → Array2D α) (n : Nat)
    (hbody : ∀ j, j < n → ∀ row, body j row = append_column_block row (B j))
    (hB : ∀ j, j < n → (B j).rows = r ∧ (B j).columns = c) :
    ∃ R, for_loop n body Array2D.empty = Except.ok R ∧
      R.rows = (if n = 0 then 0 else r) ∧ R.columns = n * c ∧
      ∀ j, j < n → ∀ a b, b < c → R.get a (j * c + b) = (B j).get a b := by
  induction n with
  | zero =>
    exact ⟨Array2D.empty, rfl, rfl, by simp [Array2D.empty], fun j hj => absurd hj (by omega)⟩
  | succ n ih =>
    obtain ⟨R, hR, hrows, hcols, hget⟩ :=
      ih (fun j hj => hbody j (by omega)) (fun j hj => hB j (by omega))
    obtain ⟨hBr, hBc⟩ := hB n (by omega)
    rw [for_loop_succ, hR]
    show ∃ R', body n R = Except.ok R' ∧ _
    rw [hbody n (by omega)]
    by_cases hn : n = 0
    · subst hn
      have hnum : R.numElements = 0 := by simp [Array2D.numElements, hrows]
      refine ⟨B 0, by simp [append_column_block, hnum, pure, Except.pure], by simp [hBr],
        by simp [hBc], ?_⟩
      intro j hj a b _
      have : j = 0 := by omega
      subst this
      simp
    · have hrows' : R.rows = r := by simp [hrows, hn]
      have hnum : R.numElements ≠ 0 := by
        unfold Array2D.numElements
        rw [hrows', hcols]
        have : 0 < n := Nat.pos_of_ne_zero hn
        positivity
      refine ⟨_, by simp only [append_column_block, hnum, if_false, hrows', hBr, ne_eq,
        not_true_eq_false]; rfl, by simp [hrows'], by simp [hcols, hBc, Nat.succ_mul], ?_⟩
      intro j hj a b hb
      by_cases hjn : j = n
      · subst hjn
        simp [hcols]
      · have hjlt : j < n := by omega
        have hlt : j * c + b < n * c := by
          calc j * c + b < j * c + c := by omega
            _ = (j + 1) * c := by ring
            _ ≤ n * c := Nat.mul_le_mul_right c (by omega)
        simp [hcols, hlt, hget j hjlt a b hb]


/-- Invariant of a loop that appends the blocks `B 0, …, B (n-1)` as rows. -/
theorem row_loop_spec (r c : Nat) (hr : 0 < r) (hc : 0 < c)
    (body : Nat → Array2D α → Except Error (Array2D α)) (B : Nat → Array2D α) (n : Nat)
    (hbody : ∀ i, i < n → ∀ result, body i result = append_row_block result (B i))
    (hB : ∀ i, i < n → (B i).rows = r ∧ (B i).columns = c) :
    ∃ R, for_loop n body Array2D.empty = Except.ok R ∧
      R.rows = n * r ∧ R.columns = (if n = 0 then 0 else c) ∧
      ∀ i, i < n → ∀ a b, a < r → R.get (i * r + a) b = (B i).get a b := by
  induction n with
  | zero =>
    exact ⟨Array2D.empty, rfl, by simp [Array2D.empty], rfl, fun j hj => absurd hj (by omega)⟩
  | succ n ih =>
    obtain ⟨R, hR, hrows, hcols, hget⟩ :=
      ih (fun j hj => hbody j (by omega)) (fun j hj => hB j (by omega))
    obtain ⟨hBr, hBc⟩ := hB n (by omega)
    rw [for_loop_succ, hR]
    show ∃ R', body n R = Except.ok R' ∧ _
    rw [hbody n (by omega)]
    by_cases hn : n = 0
    · subst hn
      have hnum : R.numElements = 0 := by simp [Array2D.numElements, hrows]
      refine ⟨B 0, by simp [append_row_block, hnum, pure, Except.pure], by simp [hBr],
        by simp [hBc], ?_⟩
      intro j hj a b _
      have : j = 0 := by omega
      subst this
      simp
    · have hcols' : R.columns = c := by simp [hcols, hn]
      have hnum : R.numElements ≠ 0 := by
        unfold Array2D.numElements
        rw [hrows, hcols']
        have : 0 < n := Nat.pos_of_ne_zero hn
        positivity
      refine ⟨_, by simp only [append_row_block, hnum, if_false, hcols', hBc, ne_eq,
        not_true_eq_false]; rfl, by simp [hrows, hBr, Nat.succ_mul], by simp [hcols'], ?_⟩
      intro i hi a b ha
      by_cases hin : i = n
      · subst hin
        simp [hrows]
      · have hilt : i < n := by omega
        have hlt : i * r + a < n * r := by
          calc i * r + a < i * r + r := by omega
            _ = (i + 1) * r := by ring
            _ ≤ n * r := Nat.mul_le_mul_right r (by omega)
        simp [hrows, hlt, hget i hilt a b ha]

/-- The two nested append loops shared by `AC_matrix_block(acf, i0)` and
`generate_AC_matrix` assemble the block-Toeplitz matrix of the blocks `B`. -/
theorem toeplitz_loop_spec (r c : Nat) (hr : 0 < r) (hc : 0 < c)
    (body : Nat → Nat → Array2D α → Except Error (Array2D α)) (B : Nat → Array2D α)
    (n : Nat) (hn : 0 < n)
    (hbody : ∀ i j, i < n → j < n → ∀ row,
      body i j row = append_column_block row (B (abs_diff i j)))
    (hB : ∀ d, d < n → (B d).rows = r ∧ (B d).columns = c) :
    ∃ M, for_loop n (fun i result => do
        let row ← for_loop n (body i) Array2D.empty
        append_row_block result row) Array2D.empty = Except.ok M ∧
      M.rows = n * r ∧ M.columns = n * c ∧
      ∀ i j, i < n → j < n → ∀ a b, a < r → b < c →
        M.get (i * r + a) (j * c + b) = (B (abs_diff i j)).get a b := by
  have hrow : ∀ i, i < n → ∃ R, for_loop n (body i) Array2D.empty = Except.ok R ∧
      R.rows = r ∧ R.columns = n * c ∧
      ∀ j, j < n → ∀ a b, b < c → R.get a (j * c + b) = (B (abs_diff i j)).get a b := by
    intro i hi
    obtain ⟨R, h1, h2, h3, h4⟩ := column_loop_spec r c hr hc (body i)
      (fun j => B (abs_diff i j)) n (fun j hj row => hbody i j hi hj row)
      (fun j hj => hB _ (abs_diff_lt hi hj))
    exact ⟨R, h1, by simpa [Nat.pos_iff_ne_zero.mp hn] using h2, h3, h4⟩
  let Rw : Nat → Array2D α := fun i =>
    match for_loop n (body i) Array2D.empty with
    | Except.ok R => R
    | Except.error _ => Array2D.empty
  have hRw : ∀ i, i < n → for_loop n (body i) Array2D.empty = Except.ok (Rw i) := by
    intro i hi
    obtain ⟨R, h1, -⟩ := hrow i hi
    simp only [Rw, h1]
  have hRwspec : ∀ i, i < n → (Rw i).rows = r ∧ (Rw i).columns = n * c ∧
      ∀ j, j < n → ∀ a b, b < c → (Rw i).get a (j * c + b) = (B (abs_diff i j)).get a b := by
    intro i hi
    obtain ⟨R, h1, h2⟩ := hrow i hi
    have : Rw i = R := by simp only [Rw, h1]
    rw [this]; exact h2
  obtain ⟨M, h1, h2, h3, h4⟩ := row_loop_spec r (n * c) hr (Nat.mul_pos hn hc)
    (fun i result => do
        let row ← for_loop n (body i) Array2D.empty
        append_row_block result row) Rw n
    (fun i hi result => by simp only [hRw i hi]; rfl)
    (fun i hi => ⟨(hRwspec i hi).1, (hRwspec i hi).2.1⟩)
  refine ⟨M, h1, h2, by simpa [Nat.pos_iff_ne_zero.mp hn] using h3, ?_⟩
  intro i j hi hj a b ha hb
  rw [h4 i hi a _ ha]
  exact (hRwspec i hi).2.2 j hj a b hb

theorem AC_matrix_block2_spec (acf : Array3 α) (h1 : 0 < acf.n1) (h2 : 0 < acf.n2) (i0 : Nat) :
    ∃ M, AC_matrix_block2 acf i0 = Except.ok M ∧
      M.rows = acf.n1 * acf.n2 ∧ M.columns = acf.n1 * acf.n2 ∧
      ∀ i j, i < acf.n1 → j < acf.n1 → ∀ a b, a < acf.n2 → b < acf.n2 →
        M.get (i * acf.n2 + a) (j * acf.n2 + b) =
          acf.get i0 (abs_diff i j) (abs_diff a b) :=
  toeplitz_loop_spec acf.n2 acf.n2 h2 h2
    (fun i j row => append_column_block row (AC_matrix_block3 acf i0 (abs_diff i j)))
    (fun d => AC_matrix_block3 acf i0 d) acf.n1 h1
    (fun _ _ _ _ _ => rfl) (fun _ _ => ⟨rfl, rfl⟩)

/-- Shape and entries of the matrix built by `generate_AC_matrix`. -/
theorem generate_AC_matrix_spec (acf : Array3 α) (h0 : 0 < acf.n0) (h1 : 0 < acf.n1)
    (h2 : 0 < acf.n2) :
    ∃ M, generate_AC_matrix acf = Except.ok M ∧
      M.rows = acf.n0 * acf.n1 * acf.n2 ∧ M.columns = acf.n0 * acf.n1 * acf.n2 ∧
      ∀ i j, i < acf.n0 → j < acf.n0 → ∀ i1 j1, i1 < acf.n1 → j1 < acf.n1 →
        ∀ i2 j2, i2 < acf.n2 → j2 < acf.n2 →
        M.get ((i * acf.n1 + i1) * acf.n2 + i2) ((j * acf.n1 + j1) * acf.n2 + j2) =
          acf.get (abs_diff i j) (abs_diff i1 j1) (abs_diff i2 j2) := by
  let B : Nat → Array2D α := fun d =>
    match AC_matrix_block2 acf d with
    | Except.ok R => R
    | Except.error _ => Array2D.empty
  have hB : ∀ d, AC_matrix_block2 acf d = Except.ok (B d) := by
    intro d
    obtain ⟨R, h, -⟩ := AC_matrix_block2_spec acf h1 h2 d
    simp only [B, h]
  have hBspec : ∀ d, (B d).rows = acf.n1 * acf.n2 ∧ (B d).columns = acf.n1 * acf.n2 ∧
      ∀ i j, i < acf.n1 → j < acf.n1 → ∀ a b, a < acf.n2 → b < acf.n2 →
        (B d).get (i * acf.n2 + a) (j * acf.n2 + b) =
          acf.get d (abs_diff i j) (abs_diff a b) := by
    intro d
    obtain ⟨R, h, hs⟩ := AC_matrix_block2_spec acf h1 h2 d
    have : B d = R := by simp only [B, h]
    rw [this]; exact hs
  obtain ⟨M, hM, hr, hc, hg⟩ := toeplitz_loop_spec (acf.n1 * acf.n2) (acf.n1 * acf.n2)
    (Nat.mul_pos h1 h2) (Nat.mul_pos h1 h2)
    (fun i j row => do
      let block ← AC_matrix_block2 acf (abs_diff i j)
      append_column_block row block) B acf.n0 h0
    (fun i j _ _ row => by simp only [hB]; rfl)
    (fun d _ => ⟨(hBspec d).1, (hBspec d).2.1⟩)
  refine ⟨M, hM, by rw [hr, Nat.mul_assoc], by rw [hc, Nat.mul_assoc], ?_⟩
  intro i j hi hj i1 j1 hi1 hj1 i2 j2 hi2 hj2
  have e1 : (i * acf.n1 + i1) * acf.n2 + i2 = i * (acf.n1 * acf.n2) + (i1 * acf.n2 + i2) := by
    ring
  have e2 : (j * acf.n1 + j1) * acf.n2 + j2 = j * (acf.n1 * acf.n2) + (j1 * acf.n2 + j2) := by
    ring
  have b1 : i1 * acf.n2 + i2 < acf.n1 * acf.n2 := by
    calc i1 * acf.n2 + i2 < i1 * acf.n2 + acf.n2 := by omega
      _ = (i1 + 1) * acf.n2 := by ring
      _ ≤ acf.n1 * acf.n2 := Nat.mul_le_mul_right _ (by omega)
  have b2 : j1 * acf.n2 + j2 < acf.n1 * acf.n2 := by
    calc j1 * acf.n2 + j2 < j1 * acf.n2 + acf.n2 := by omega
      _ = (j1 + 1) * acf.n2 := by ring
      _ ≤ acf.n1 * acf.n2 := Nat.mul_le_mul_right _ (by omega)
  rw [e1, e2, hg i j hi hj _ _ b1 b2]
  exact (hBspec _).2.2 i1 j1 hi1 hj1 i2 j2 hi2 hj2


end voodoo_proofs



section claims_voodoo

variable {α : Type} [Inhabited α]

/-- Every storage offset below `n0*n1*n2` is the offset of a cell inside the shape. -/
theorem lin_decode (n0 n1 n2 a : Nat) (ha : a < n0 * n1 * n2) :
    ∃ i i1 i2, i < n0 ∧ i1 < n1 ∧ i2 < n2 ∧ a = (i * n1 + i1) * n2 + i2 := by
  have h2 : 0 < n2 := by
    rcases Nat.eq_zero_or_pos n2 with h | h
    · subst h; simp at ha
    · exact h
  have h1 : 0 < n1 := by
    rcases Nat.eq_zero_or_pos n1 with h | h
    · subst h; simp at ha
    · exact h
  refine ⟨a / n2 / n1, a / n2 % n1, a % n2, ?_, Nat.mod_lt _ h1, Nat.mod_lt _ h2, ?_⟩
  · rw [Nat.div_lt_iff_lt_mul h1, Nat.div_lt_iff_lt_mul h2]
    exact ha
  · rw [Nat.div_add_mod', Nat.div_add_mod']

/-- Claim C1: for an ACF tensor with extents `n0,n1,n2 ≥ 1`, `generate_AC_matrix` returns
a matrix with `n0*n1*n2` rows and columns whose entry at row `(i*n1+i1)*n2+i2` and column
`(j*n1+j1)*n2+j2` is `acf(|i-j|, |i1-j1|, |i2-j2|)`; every diagonal entry is `acf(0,0,0)`. -/
theorem generate_AC_matrix_entries (acf : Array3 α) (h0 : 0 < acf.n0) (h1 : 0 < acf.n1)
    (h2 : 0 < acf.n2) :
    ∃ M, generate_AC_matrix acf = Except.ok M ∧
      M.rows = acf.n0 * acf.n1 * acf.n2 ∧ M.columns = acf.n0 * acf.n1 * acf.n2 ∧
      (∀ i j, i < acf.n0 → j < acf.n0 → ∀ i1 j1, i1 < acf.n1 → j1 < acf.n1 →
        ∀ i2 j2, i2 < acf.n2 → j2 < acf.n2 →
        M.get ((i * acf.n1 + i1) * acf.n2 + i2) ((j * acf.n1 + j1) * acf.n2 + j2) =
          acf.get (Int.natAbs ((i : Int) - j)) (Int.natAbs ((i1 : Int) - j1))
            (Int.natAbs ((i2 : Int) - j2))) ∧
      ∀ a, a < acf.n0 * acf.n1 * acf.n2 → M.get a a = acf.get 0 0 0 := by
  obtain ⟨M, hM, hr, hc, hg⟩ := generate_AC_matrix_spec acf h0 h1 h2
  refine ⟨M, hM, hr, hc, hg, ?_⟩
  intro a ha
  obtain ⟨i, i1, i2, hi, hi1, hi2, rfl⟩ := lin_decode _ _ _ a ha
  rw [hg i i hi hi i1 i1 hi1 hi1 i2 i2 hi2 hi2]
  simp [abs_diff_self]

/-- Claim C1 at the `2×2×2` tensor with storage `1,…,8`. -/
theorem generate_AC_matrix_entries_witness :
    ∃ M, generate_AC_matrix (⟨2, 2, 2, [1, 2, 3, 4, 5, 6, 7, 8]⟩ : Array3 ℚ) = Except.ok M ∧
      M.rows = 8 ∧ M.columns = 8 ∧ M.get 5 3 = 7 ∧ M.get 6 6 = 1 := by
  obtain ⟨M, hM, hr, hc, hg, hd⟩ := generate_AC_matrix_entries
    (⟨2, 2, 2, [1, 2, 3, 4, 5, 6, 7, 8]⟩ : Array3 ℚ) (by decide) (by decide) (by decide)
  refine ⟨M, hM, hr, hc, ?_, ?_⟩
  · have := hg 1 0 (by decide) (by decide) 0 1 (by decide) (by decide) 1 1 (by decide)
      (by decide)
    simpa [Array3.get, Array3.lin] using this
  · have := hd 6 (by decide)
    simpa [Array3.get, Array3.lin] using this

/-- Claim C2: for an ACF tensor with extents `n0,n1,n2 ≥ 1`, the matrix returned by
`generate_AC_matrix` is symmetric: `M[a][b] = M[b][a]` for all `a, b < n0*n1*n2`. -/
theorem generate_AC_matrix_symmetric (acf : Array3 α) (h0 : 0 < acf.n0) (h1 : 0 < acf.n1)
    (h2 : 0 < acf.n2) :
    ∃ M, generate_AC_matrix acf = Except.ok M ∧
      ∀ a b, a < acf.n0 * acf.n1 * acf.n2 → b < acf.n0 * acf.n1 * acf.n2 →
        M.get a b = M.get b a := by
  obtain ⟨M, hM, -, -, hg⟩ := generate_AC_matrix_spec acf h0 h1 h2
  refine ⟨M, hM, ?_⟩
  intro a b ha hb
  obtain ⟨i, i1, i2, hi, hi1, hi2, rfl⟩ := lin_decode _ _ _ a ha
  obtain ⟨j, j1, j2, hj, hj1, hj2, rfl⟩ := lin_decode _ _ _ b hb
  rw [hg i j hi hj i1 j1 hi1 hj1 i2 j2 hi2 hj2, hg j i hj hi j1 i1 hj1 hi1 j2 i2 hj2 hi2,
    abs_diff_comm i j, abs_diff_comm i1 j1, abs_diff_comm i2 j2]

/-- Claim C2 at the `2×2×2` tensor with storage `1,…,8`. -/
theorem generate_AC_matrix_symmetric_witness :
    ∃ M, generate_AC_matrix (⟨2, 2, 2, [1, 2, 3, 4, 5, 6, 7, 8]⟩ : Array3 ℚ) = Except.ok M ∧
      M.get 5 3 = M.get 3 5 := by
  obtain ⟨M, hM, hs⟩ := generate_AC_matrix_symmetric
    (⟨2, 2, 2, [1, 2, 3, 4, 5, 6, 7, 8]⟩ : Array3 ℚ) (by decide) (by decide) (by decide)
  exact ⟨M, hM, hs 5 3 (by decide) (by decide)⟩

end claims_voodoo

section yule_walker_proofs

theorem for_pure_succ {σ : Type} (n : Nat) (body : Nat → σ → σ) (init : σ) :
    for_pure (n + 1) body init = body n (for_pure n body init) := rfl

theorem copy_n_length {α : Type} [Inhabited α] (src : List α) (n : Nat) (dst : List α)
    (off : Nat) : (copy_n src n dst off).length = dst.length := by
  induction n with
  | zero => rfl
  | succ n ih =>
    unfold copy_n at ih ⊢
    rw [for_pure_succ, List.length_set, ih]

theorem copy_n_getElem? {α : Type} [Inhabited α] (src : List α) (n : Nat) (dst : List α)
    (off p : Nat) :
    (copy_n src n dst off)[p]? =
      if off ≤ p ∧ p < off + n ∧ p < dst.length then some (src.getD (p - off) default)
      else dst[p]? := by
  induction n with
  | zero =>
    have : ¬ (off ≤ p ∧ p < off + 0 ∧ p < dst.length) := by omega
    simp only [this, if_false]
    rfl
  | succ n ih =>
    have hlen := copy_n_length src n dst off
    unfold copy_n at ih hlen ⊢
    rw [for_pure_succ, List.getElem?_set, ih, hlen]
    by_cases h1 : off + n = p
    · subst h1
      by_cases h2 : off + n < dst.length
      · simp [h2]
      · have h3 : dst[off + n]? = none := List.getElem?_eq_none (by omega)
        simp [h2, h3]
    · by_cases h2 : off ≤ p ∧ p < off + n ∧ p < dst.length
      · have h3 : off ≤ p ∧ p < off + (n + 1) ∧ p < dst.length := by omega
        simp [h1, h2, h3]
      · have h3 : ¬ (off ≤ p ∧ p < off + (n + 1) ∧ p < dst.length) := by omega
        simp [h1, h2, h3]

/-- Storage of the coefficient tensor after `phi(0,0,0) = 0` and the `copy_n` of the
solved right-hand side: a zero followed by the first `m` entries of the solution. -/
theorem phi_storage (x : List ℚ) (m N : Nat) (hN : N = m + 1) :
    copy_n x m ((List.replicate N (default : ℚ)).set 0 0) 1 =
      0 :: (List.range m).map (fun a => x.getD a 0) := by
  apply List.ext_getElem?
  intro p
  rw [copy_n_getElem?]
  rcases p with _ | p
  · simp [hN]
  · by_cases hp : p < m
    · have h : 1 ≤ p + 1 ∧ p + 1 < 1 + m ∧
          p + 1 < ((List.replicate N (default : ℚ)).set 0 0).length := by
        simp [hN]; omega
      simp only [h, and_self, if_true]
      simp [List.getElem?_range hp]
      rfl
    · have h : ¬ (1 ≤ p + 1 ∧ p + 1 < 1 + m ∧
          p + 1 < ((List.replicate N (default : ℚ)).set 0 0).length) := by
        simp [hN]; omega
      simp only [h, if_false]
      have h1 : ((List.replicate N (default : ℚ)).set 0 0)[p + 1]? = none :=
        List.getElem?_eq_none (by simp [hN]; omega)
      have h2 : (0 :: (List.range m).map (fun a => x.getD a 0))[p + 1]? = none :=
        List.getElem?_eq_none (by simp; omega)
      rw [h1, h2]

/-- The coefficient tensor that `compute_AR_coefs` assembles from what the solver hands
back, and the three ways the function can end. -/
theorem compute_AR_coefs_eq (xsysv_ : Nat → Array2D ℚ → List ℚ → Int × List ℚ)
    (acf : Array3 ℚ) (hN : 0 < acf.n0 * acf.n1 * acf.n2) (M : Array2D ℚ)
    (hM : generate_AC_matrix acf = Except.ok M) (r : Int × List ℚ)
    (hr : xsysv_ (acf.numElements - 1) (yw_lhs M (acf.numElements - 1))
      (yw_rhs M (acf.numElements - 1)) = r) :
    compute_AR_coefs xsysv_ acf =
      if r.1 ≠ 0 then Except.error (Error.sysv_error r.1)
      else if (!is_stationary ⟨acf.n0, acf.n1, acf.n2,
          0 :: (List.range (acf.numElements - 1)).map (fun a => r.2.getD a 0)⟩) = true then
        Except.error Error.not_stationary
      else Except.ok ⟨acf.n0, acf.n1, acf.n2,
          0 :: (List.range (acf.numElements - 1)).map (fun a => r.2.getD a 0)⟩ := by
  have hN1 : acf.n0 * acf.n1 * acf.n2 = acf.numElements - 1 + 1 := by
    unfold Array3.numElements; omega
  have hst := phi_storage r.2 (acf.numElements - 1) (acf.n0 * acf.n1 * acf.n2) hN1
  have hrows : (yw_lhs M (acf.numElements - 1)).rows = acf.numElements - 1 := rfl
  have hcols : (yw_lhs M (acf.numElements - 1)).columns = acf.numElements - 1 := rfl
  have hlen : (yw_rhs M (acf.numElements - 1)).length = acf.numElements - 1 := by
    simp [yw_rhs]
  have hnum : (Array3.alloc acf.n0 acf.n1 acf.n2 : Array3 ℚ).numElements =
      acf.numElements - 1 + 1 := hN1
  have hset : ((Array3.alloc acf.n0 acf.n1 acf.n2 : Array3 ℚ).set 0 0 0 0).data =
      (List.replicate (acf.n0 * acf.n1 * acf.n2) (default : ℚ)).set 0 0 := by
    simp [Array3.set, Array3.alloc, Array3.lin]
  unfold compute_AR_coefs
  rw [hM]
  simp only [bind, Except.bind, sysv, hr, hrows, hcols, hlen, hnum, hset, hst, ne_eq,
    not_true_eq_false, if_false, check_info]
  by_cases hinfo : r.1 = 0
  · simp only [hinfo, not_true_eq_false, if_false, pure, Except.pure, hst]
    rfl
  · simp only [hinfo, not_false_eq_true, if_true]
    rfl

end yule_walker_proofs

section yule_walker_claims

theorem lin_lt {n0 n1 n2 i j k : Nat} (hi : i < n0) (hj : j < n1) (hk : k < n2) :
    (i * n1 + j) * n2 + k < n0 * n1 * n2 := by
  calc (i * n1 + j) * n2 + k < (i * n1 + j) * n2 + n2 := by omega
    _ = (i * n1 + j + 1) * n2 := by ring
    _ ≤ (n0 * n1) * n2 := by
      apply Nat.mul_le_mul_right
      calc i * n1 + j + 1 ≤ i * n1 + n1 := by omega
        _ = (i + 1) * n1 := by ring
        _ ≤ n0 * n1 := Nat.mul_le_mul_right _ (by omega)

theorem is_stationary_iff (phi : Array3 ℚ) :
    is_stationary phi = true ↔ ∀ v, v ∈ phi.data → ¬ |v| > 1 := by
  unfold is_stationary
  rw [Bool.not_eq_true', ← Bool.not_eq_true, List.any_eq_true]
  simp

theorem yw_rhs_getD (M : Array2D ℚ) (m a : Nat) (ha : a < m) :
    (yw_rhs M m).getD a 0 = M.get (a + 1) 0 := by
  unfold yw_rhs
  rw [List.getD_eq_getElem?_getD, List.getElem?_map, List.getElem?_range ha]
  rfl

theorem mem_phi_storage (x : List ℚ) (m : Nat) (v : ℚ) :
    v ∈ (0 : ℚ) :: (List.range m).map (fun a => x.getD a 0) ↔
      v = 0 ∨ ∃ a, a < m ∧ v = x.getD a 0 := by
  simp only [List.mem_cons, List.mem_map, List.mem_range]
  constructor
  · rintro (h | ⟨a, ha, rfl⟩)
    · exact Or.inl h
    · exact Or.inr ⟨a, ha, rfl⟩
  · rintro (h | ⟨a, ha, rfl⟩)
    · exact Or.inl h
    · exact Or.inr ⟨a, ha, rfl⟩

theorem phi_storage_getD (x : List ℚ) (m p : Nat) (hp : p < m) :
    ((0 : ℚ) :: (List.range m).map (fun a => x.getD a 0)).getD (p + 1) 0 = x.getD p 0 := by
  rw [List.getD_cons_succ, List.getD_eq_getElem?_getD, List.getElem?_map,
    List.getElem?_range hp]
  rfl

/-- Claim C3: with `m = n0*n1*n2 - 1` and the external solver handing back `info = 0` and a
vector `x` that solves `lhs * x = rhs` exactly (and is stationary, so that the function
returns), `compute_AR_coefs` has built `rhs[a] = M[a+1][0]`, `lhs[a][b] = M[a+1][b+1]`
from `M = generate_AC_matrix(acf)` and returns a tensor of the shape of `acf` whose entry at
linear index `p = (i*n1+j)*n2+k ≥ 1` is `x[p-1]`; the tensor satisfies the Yule-Walker
equations `Σ_{q=1..m} M[p][q] * phi_q = M[p][0]` for `p = 1..m`. -/
theorem compute_AR_coefs_yule_walker (xsysv_ : Nat → Array2D ℚ → List ℚ → Int × List ℚ)
    (acf : Array3 ℚ) (h0 : 0 < acf.n0) (h1 : 0 < acf.n1) (h2 : 0 < acf.n2)
    (M : Array2D ℚ) (hM : generate_AC_matrix acf = Except.ok M) (x : List ℚ)
    (hx : xsysv_ (acf.numElements - 1) (yw_lhs M (acf.numElements - 1))
      (yw_rhs M (acf.numElements - 1)) = (0, x))
    (hexact : ∀ a, a < acf.numElements - 1 →
      ∑ b ∈ Finset.range (acf.numElements - 1),
        (yw_lhs M (acf.numElements - 1)).get a b * x.getD b 0 =
      (yw_rhs M (acf.numElements - 1)).getD a 0)
    (hstat : ∀ a, a < acf.numElements - 1 → |x.getD a 0| ≤ 1) :
    ((yw_rhs M (acf.numElements - 1)).length = acf.numElements - 1 ∧
      (∀ a, a < acf.numElements - 1 →
        (yw_rhs M (acf.numElements - 1)).getD a 0 = M.get (a + 1) 0)) ∧
    ((yw_lhs M (acf.numElements - 1)).rows = acf.numElements - 1 ∧
      (yw_lhs M (acf.numElements - 1)).columns = acf.numElements - 1 ∧
      (∀ a b, (yw_lhs M (acf.numElements - 1)).get a b = M.get (a + 1) (b + 1))) ∧
    ∃ phi, compute_AR_coefs xsysv_ acf = Except.ok phi ∧
      (phi.n0 = acf.n0 ∧ phi.n1 = acf.n1 ∧ phi.n2 = acf.n2) ∧
      (∀ i j k, i < acf.n0 → j < acf.n1 → k < acf.n2 → 1 ≤ (i * acf.n1 + j) * acf.n2 + k →
        phi.get i j k = x.getD ((i * acf.n1 + j) * acf.n2 + k - 1) 0) ∧
      (∀ p, 1 ≤ p → p ≤ acf.numElements - 1 →
        ∑ q ∈ Finset.Icc 1 (acf.numElements - 1), M.get p q * phi.data.getD q 0 =
          M.get p 0) := by
  have hN : 0 < acf.n0 * acf.n1 * acf.n2 := Nat.mul_pos (Nat.mul_pos h0 h1) h2
  refine ⟨⟨by simp [yw_rhs], fun a ha => yw_rhs_getD M _ a ha⟩, ⟨rfl, rfl, fun _ _ => rfl⟩, ?_⟩
  have hst : is_stationary ⟨acf.n0, acf.n1, acf.n2,
      0 :: (List.range (acf.numElements - 1)).map (fun a => x.getD a 0)⟩ = true := by
    rw [is_stationary_iff]
    intro v hv
    rcases (mem_phi_storage x _ v).mp hv with rfl | ⟨a, ha, rfl⟩
    · simp
    · exact not_lt.mpr (hstat a ha)
  refine ⟨⟨acf.n0, acf.n1, acf.n2,
      0 :: (List.range (acf.numElements - 1)).map (fun a => x.getD a 0)⟩, ?_,
      ⟨rfl, rfl, rfl⟩, ?_, ?_⟩
  · rw [compute_AR_coefs_eq xsysv_ acf hN M hM _ hx, if_neg (by simp), hst]
    rfl
  · intro i j k hi hj hk hp
    have hlt := lin_lt hi hj hk
    obtain ⟨p, hp'⟩ : ∃ p, (i * acf.n1 + j) * acf.n2 + k = p + 1 := ⟨_, (Nat.sub_add_cancel hp).symm⟩
    show List.getD _ ((i * acf.n1 + j) * acf.n2 + k) _ = _
    rw [hp']
    have hpm : p < acf.numElements - 1 := by unfold Array3.numElements; omega
    rw [Nat.add_sub_cancel]
    exact phi_storage_getD x _ p hpm
  · intro p hp1 hpm
    obtain ⟨a, rfl⟩ : ∃ a, p = a + 1 := ⟨p - 1, (Nat.sub_add_cancel hp1).symm⟩
    have ha : a < acf.numElements - 1 := by omega
    have he := hexact a ha
    rw [yw_rhs_getD M _ a ha] at he
    rw [← he, ← Nat.Ico_succ_right, Finset.sum_Ico_eq_sum_range]
    simp only [Nat.add_sub_cancel]
    apply Finset.sum_congr rfl
    intro b hb
    have hb' : b < acf.numElements - 1 := by
      rw [Finset.mem_range] at hb
      omega
    rw [Nat.add_comm 1 b, phi_storage_getD x _ b hb']
    rfl

/-- Claim C3 at the `1×1×2` tensor `[1, 1/2]` with a solver that hands back `[1/2]`. -/
theorem compute_AR_coefs_yule_walker_witness :
    ∃ M phi, generate_AC_matrix (⟨1, 1, 2, [1, 1 / 2]⟩ : Array3 ℚ) = Except.ok M ∧
      compute_AR_coefs (fun _ _ _ => (0, [1 / 2])) ⟨1, 1, 2, [1, 1 / 2]⟩ = Except.ok phi ∧
      phi.get 0 0 1 = 1 / 2 ∧
      ∑ q ∈ Finset.Icc 1 1, M.get 1 q * phi.data.getD q 0 = M.get 1 0 := by
  obtain ⟨-, -, phi, hphi, -, hget, hyw⟩ := compute_AR_coefs_yule_walker
    (fun _ _ _ => (0, [1 / 2])) (⟨1, 1, 2, [1, 1 / 2]⟩ : Array3 ℚ)
    (by decide) (by decide) (by decide) _ rfl [1 / 2] rfl
    (by
      intro a ha
      have ha0 : a = 0 := by
        simp [Array3.numElements] at ha
        exact ha
      subst ha0
      simp [Array3.numElements, yw_lhs, yw_rhs, AC_matrix_block3, Array3.get, Array3.lin,
        abs_diff])
    (by
      intro a ha
      have ha0 : a = 0 := by
        simp [Array3.numElements] at ha
        exact ha
      subst ha0
      norm_num [abs_le])
  refine ⟨_, phi, rfl, hphi, ?_, ?_⟩
  · have := hget 0 0 1 (by decide) (by decide) (by decide) (by decide)
    simpa using this
  · exact hyw 1 (by decide) (by decide)

/-- Claim C4: whenever `compute_AR_coefs` returns `phi`, `phi(0,0,0) = 0` and every entry
of `phi` has absolute value `≤ 1`; it raises the non-stationarity error exactly when the
solver succeeded (`info = 0`) and some solved coefficient has absolute value `> 1`, and it
returns exactly when the solver succeeded and no solved coefficient has absolute value
`> 1`; `is_stationary(phi)` is true iff no entry of `phi` has absolute value `> 1`. -/
theorem compute_AR_coefs_stationary (xsysv_ : Nat → Array2D ℚ → List ℚ → Int × List ℚ)
    (acf : Array3 ℚ) (h0 : 0 < acf.n0) (h1 : 0 < acf.n1) (h2 : 0 < acf.n2)
    (M : Array2D ℚ) (hM : generate_AC_matrix acf = Except.ok M) (info : Int) (x : List ℚ)
    (hx : xsysv_ (acf.numElements - 1) (yw_lhs M (acf.numElements - 1))
      (yw_rhs M (acf.numElements - 1)) = (info, x)) :
    (∀ phi, compute_AR_coefs xsysv_ acf = Except.ok phi →
      phi.get 0 0 0 = 0 ∧ phi.WF ∧ (∀ v, v ∈ phi.data → |v| ≤ 1) ∧
      ∀ i j k, i < phi.n0 → j < phi.n1 → k < phi.n2 → |phi.get i j k| ≤ 1) ∧
    (compute_AR_coefs xsysv_ acf = Except.error Error.not_stationary ↔
      info = 0 ∧ ∃ a, a < acf.numElements - 1 ∧ |x.getD a 0| > 1) ∧
    ((∃ phi, compute_AR_coefs xsysv_ acf = Except.ok phi) ↔
      info = 0 ∧ ∀ a, a < acf.numElements - 1 → |x.getD a 0| ≤ 1) ∧
    ∀ phi : Array3 ℚ, is_stationary phi = true ↔ ∀ v, v ∈ phi.data → ¬ |v| > 1 := by
  have hN : 0 < acf.n0 * acf.n1 * acf.n2 := Nat.mul_pos (Nat.mul_pos h0 h1) h2
  have heq := compute_AR_coefs_eq xsysv_ acf hN M hM _ hx
  have hstat : is_stationary ⟨acf.n0, acf.n1, acf.n2,
      0 :: (List.range (acf.numElements - 1)).map (fun a => x.getD a 0)⟩ = true ↔
      ∀ a, a < acf.numElements - 1 → |x.getD a 0| ≤ 1 := by
    rw [is_stationary_iff]
    constructor
    · intro h a ha
      exact not_lt.mp (h _ ((mem_phi_storage x _ _).mpr (Or.inr ⟨a, ha, rfl⟩)))
    · intro h v hv
      rcases (mem_phi_storage x _ v).mp hv with rfl | ⟨a, ha, rfl⟩
      · simp
      · exact not_lt.mpr (h a ha)
  simp only [] at heq
  refine ⟨?_, ?_, ?_, is_stationary_iff⟩
  · intro phi hphi
    rw [heq] at hphi
    by_cases hinfo : info = 0
    · rw [if_neg (by simpa using hinfo)] at hphi
      cases hs : is_stationary ⟨acf.n0, acf.n1, acf.n2,
        0 :: (List.range (acf.numElements - 1)).map (fun a => x.getD a 0)⟩
      · rw [hs] at hphi
        simp at hphi
      · rw [hs] at hphi
        simp only [Bool.not_true, Bool.false_eq_true, if_false, Except.ok.injEq] at hphi
        subst hphi
        have hall : ∀ v, v ∈ (0 : ℚ) :: (List.range (acf.numElements - 1)).map
            (fun a => x.getD a 0) → |v| ≤ 1 :=
          fun v hv => not_lt.mp ((is_stationary_iff _).mp hs v hv)
        have hwf : (0 :: (List.range (acf.numElements - 1)).map
            (fun a => x.getD a 0)).length = acf.n0 * acf.n1 * acf.n2 := by
          simp [Array3.numElements]; omega
        refine ⟨by simp [Array3.get, Array3.lin], hwf, hall, ?_⟩
        intro i j k hi hj hk
        have hlt := lin_lt hi hj hk
        apply hall
        show List.getD _ ((i * acf.n1 + j) * acf.n2 + k) _ ∈ _
        rw [List.getD_eq_getElem _ _ (by rw [hwf]; exact hlt)]
        exact List.getElem_mem _
    · rw [if_pos (by simpa using hinfo)] at hphi
      simp at hphi
  · rw [heq]
    by_cases hinfo : info = 0
    · rw [if_neg (by simpa using hinfo)]
      cases hs : is_stationary ⟨acf.n0, acf.n1, acf.n2,
        0 :: (List.range (acf.numElements - 1)).map (fun a => x.getD a 0)⟩
      · have hn : ¬ ∀ a, a < acf.numElements - 1 → |x.getD a 0| ≤ 1 := by
          rw [← hstat, hs]; simp
        push_neg at hn
        simp only [Bool.not_false, if_true, true_iff]
        exact ⟨hinfo, hn⟩
      · have hy := hstat.mp hs
        simp only [Bool.not_true, Bool.false_eq_true, if_false, false_iff, reduceCtorEq]
        rintro ⟨-, a, ha, hgt⟩
        exact absurd (hy a ha) (not_le.mpr hgt)
    · rw [if_pos (by simpa using hinfo)]
      simp [hinfo]
  · rw [heq]
    by_cases hinfo : info = 0
    · rw [if_neg (by simpa using hinfo)]
      cases hs : is_stationary ⟨acf.n0, acf.n1, acf.n2,
        0 :: (List.range (acf.numElements - 1)).map (fun a => x.getD a 0)⟩
      · have hn : ¬ ∀ a, a < acf.numElements - 1 → |x.getD a 0| ≤ 1 := by
          rw [← hstat, hs]; simp
        simp only [Bool.not_false, if_true, reduceCtorEq, exists_false, false_iff]
        exact fun h => hn h.2
      · have hy := hstat.mp hs
        simp only [Bool.not_true, Bool.false_eq_true, if_false]
        exact ⟨fun _ => ⟨hinfo, hy⟩, fun _ => ⟨_, rfl⟩⟩
    · rw [if_pos (by simpa using hinfo)]
      simp [hinfo]

/-- Claim C4 at the `1×1×2` tensor `[1, 1/2]` with a solver that hands back `[2]`: the
non-stationarity error is raised. -/
theorem compute_AR_coefs_stationary_witness :
    compute_AR_coefs (fun _ _ _ => (0, [2])) (⟨1, 1, 2, [1, 1 / 2]⟩ : Array3 ℚ) =
      Except.error Error.not_stationary :=
  (compute_AR_coefs_stationary (fun _ _ _ => (0, [2])) (⟨1, 1, 2, [1, 1 / 2]⟩ : Array3 ℚ)
    (by decide) (by decide) (by decide) _ rfl 0 [2] rfl).2.1.mpr
    ⟨rfl, 0, by simp [Array3.numElements], by norm_num⟩

theorem abs_diff_eq_zero {i j : Nat} : abs_diff i j = 0 ↔ i = j := by
  unfold abs_diff; omega

theorem sum_zipWith_zero (l l' : List ℚ) (h : ∀ v, v ∈ l → v = 0) :
    (List.zipWith (fun a b => a * b) l l').sum = 0 := by
  induction l generalizing l' with
  | nil => simp
  | cons a l ih =>
    cases l' with
    | nil => simp
    | cons b l' =>
      have ha : a = 0 := h a (List.mem_cons_self _ _)
      have := ih l' (fun v hv => h v (List.mem_cons_of_mem _ hv))
      simp [ha, this]

/-- For the ACF of pure white noise the autocovariance matrix is the identity. -/
theorem generate_AC_matrix_white (acf : Array3 ℚ) (h0 : 0 < acf.n0) (h1 : 0 < acf.n1)
    (h2 : 0 < acf.n2) (hone : acf.get 0 0 0 = 1)
    (hzero : ∀ i j k, i < acf.n0 → j < acf.n1 → k < acf.n2 → ¬ (i = 0 ∧ j = 0 ∧ k = 0) →
      acf.get i j k = 0)
    (M : Array2D ℚ) (hM : generate_AC_matrix acf = Except.ok M) (a b : Nat)
    (ha : a < acf.n0 * acf.n1 * acf.n2) (hb : b < acf.n0 * acf.n1 * acf.n2) :
    M.get a b = if a = b then 1 else 0 := by
  obtain ⟨M', hM', -, -, hg⟩ := generate_AC_matrix_spec acf h0 h1 h2
  rw [hM] at hM'
  cases hM'
  obtain ⟨i, i1, i2, hi, hi1, hi2, rfl⟩ := lin_decode _ _ _ a ha
  obtain ⟨j, j1, j2, hj, hj1, hj2, rfl⟩ := lin_decode _ _ _ b hb
  rw [hg i j hi hj i1 j1 hi1 hj1 i2 j2 hi2 hj2]
  by_cases hall : i = j ∧ i1 = j1 ∧ i2 = j2
  · obtain ⟨rfl, rfl, rfl⟩ := hall
    simp [abs_diff_self, hone]
  · have hne : (i * acf.n1 + i1) * acf.n2 + i2 ≠ (j * acf.n1 + j1) * acf.n2 + j2 := by
      intro he
      apply hall
      have e2 : i2 = j2 := by
        have := congrArg (fun t => t % acf.n2) he
        simpa [Nat.add_mod, Nat.mul_mod, Nat.mod_eq_of_lt hi2, Nat.mod_eq_of_lt hj2] using this
      subst e2
      have he' : i * acf.n1 + i1 = j * acf.n1 + j1 :=
        Nat.eq_of_mul_eq_mul_right h2 (Nat.add_right_cancel he)
      have e1 : i1 = j1 := by
        have := congrArg (fun t => t % acf.n1) he'
        simpa [Nat.add_mod, Nat.mul_mod, Nat.mod_eq_of_lt hi1, Nat.mod_eq_of_lt hj1] using this
      subst e1
      exact ⟨Nat.eq_of_mul_eq_mul_right h1 (Nat.add_right_cancel he'), rfl, rfl⟩
    rw [if_neg hne]
    apply hzero _ _ _ (abs_diff_lt hi hj) (abs_diff_lt hi1 hj1) (abs_diff_lt hi2 hj2)
    simp only [abs_diff_eq_zero]
    exact hall

/-- Claim C5: for a shape with all extents `≥ 1` and an ACF that is `1` at `(0,0,0)` and
zero elsewhere, if the external solver hands back `info = 0` and a solution of the system
it is given, `compute_AR_coefs` returns a tensor of that shape whose entries are all zero,
and `white_noise_variance` of that tensor and the ACF is `1`. -/
theorem compute_AR_coefs_white_noise (xsysv_ : Nat → Array2D ℚ → List ℚ → Int × List ℚ)
    (acf : Array3 ℚ) (h0 : 0 < acf.n0) (h1 : 0 < acf.n1) (h2 : 0 < acf.n2)
    (hone : acf.get 0 0 0 = 1)
    (hzero : ∀ i j k, i < acf.n0 → j < acf.n1 → k < acf.n2 → ¬ (i = 0 ∧ j = 0 ∧ k = 0) →
      acf.get i j k = 0)
    (M : Array2D ℚ) (hM : generate_AC_matrix acf = Except.ok M) (x : List ℚ)
    (hx : xsysv_ (acf.numElements - 1) (yw_lhs M (acf.numElements - 1))
      (yw_rhs M (acf.numElements - 1)) = (0, x))
    (hexact : ∀ a, a < acf.numElements - 1 →
      ∑ b ∈ Finset.range (acf.numElements - 1),
        (yw_lhs M (acf.numElements - 1)).get a b * x.getD b 0 =
      (yw_rhs M (acf.numElements - 1)).getD a 0) :
    ∃ phi, compute_AR_coefs xsysv_ acf = Except.ok phi ∧
      (phi.n0 = acf.n0 ∧ phi.n1 = acf.n1 ∧ phi.n2 = acf.n2) ∧ phi.WF ∧
      (∀ v, v ∈ phi.data → v = 0) ∧
      (∀ i j k, i < acf.n0 → j < acf.n1 → k < acf.n2 → phi.get i j k = 0) ∧
      white_noise_variance phi acf = 1 := by
  have hN : 0 < acf.n0 * acf.n1 * acf.n2 := Nat.mul_pos (Nat.mul_pos h0 h1) h2
  have hx0 : ∀ a, a < acf.numElements - 1 → x.getD a 0 = 0 := by
    intro a ha
    have haN : a + 1 < acf.n0 * acf.n1 * acf.n2 := by
      unfold Array3.numElements at ha; omega
    have he := hexact a ha
    rw [yw_rhs_getD M _ a ha,
      generate_AC_matrix_white acf h0 h1 h2 hone hzero M hM (a + 1) 0 haN hN,
      if_neg (by omega)] at he
    have hterm : ∀ b, b ∈ Finset.range (acf.numElements - 1) →
        (yw_lhs M (acf.numElements - 1)).get a b * x.getD b 0 =
          if a = b then x.getD b 0 else 0 := by
      intro b hb
      rw [Finset.mem_range] at hb
      have hbN : b + 1 < acf.n0 * acf.n1 * acf.n2 := by
        unfold Array3.numElements at hb; omega
      show M.get (a + 1) (b + 1) * _ = _
      rw [generate_AC_matrix_white acf h0 h1 h2 hone hzero M hM (a + 1) (b + 1) haN hbN]
      by_cases hab : a = b
      · simp [hab]
      · have : a + 1 ≠ b + 1 := by omega
        simp [hab, this]
    rw [Finset.sum_congr rfl hterm, Finset.sum_ite_eq, if_pos (Finset.mem_range.mpr ha)] at he
    exact he
  have hall : ∀ v, v ∈ (0 : ℚ) :: (List.range (acf.numElements - 1)).map
      (fun a => x.getD a 0) → v = 0 := by
    intro v hv
    rcases (mem_phi_storage x _ v).mp hv with rfl | ⟨a, ha, rfl⟩
    · rfl
    · exact hx0 a ha
  have hst : is_stationary ⟨acf.n0, acf.n1, acf.n2,
      0 :: (List.range (acf.numElements - 1)).map (fun a => x.getD a 0)⟩ = true := by
    rw [is_stationary_iff]
    intro v hv
    rw [hall v hv]
    simp
  have hwf : (0 :: (List.range (acf.numElements - 1)).map
      (fun a => x.getD a 0)).length = acf.n0 * acf.n1 * acf.n2 := by
    simp [Array3.numElements]; omega
  refine ⟨⟨acf.n0, acf.n1, acf.n2,
      0 :: (List.range (acf.numElements - 1)).map (fun a => x.getD a 0)⟩, ?_,
      ⟨rfl, rfl, rfl⟩, hwf, hall, ?_, ?_⟩
  · rw [compute_AR_coefs_eq xsysv_ acf hN M hM _ hx, if_neg (by simp), hst]
    rfl
  · intro i j k hi hj hk
    have hlt := lin_lt hi hj hk
    apply hall
    show List.getD _ ((i * acf.n1 + j) * acf.n2 + k) _ ∈ _
    rw [List.getD_eq_getElem _ _ (by rw [hwf]; exact hlt)]
    exact List.getElem_mem _
  · unfold white_noise_variance
    rw [sum_zipWith_zero _ _ hall, hone]
    simp

/-- Claim C5 at the `1×2×2` white-noise ACF with a solver that hands the right-hand side
back unchanged. -/
theorem compute_AR_coefs_white_noise_witness :
    ∃ phi, compute_AR_coefs (fun _ _ b => (0, b)) (⟨1, 2, 2, [1, 0, 0, 0]⟩ : Array3 ℚ) =
        Except.ok phi ∧
      phi.get 0 1 1 = 0 ∧
      white_noise_variance phi ⟨1, 2, 2, [1, 0, 0, 0]⟩ = 1 := by
  obtain ⟨phi, hphi, -, -, -, hget, hvar⟩ := compute_AR_coefs_white_noise
    (fun _ _ b => (0, b)) (⟨1, 2, 2, [1, 0, 0, 0]⟩ : Array3 ℚ)
    (by decide) (by decide) (by decide) (by simp [Array3.get, Array3.lin])
    (by
      intro i j k hi hj hk hne
      have hi0 : i = 0 := by simp at hi; exact hi
      subst hi0
      simp only [] at hj hk
      interval_cases j <;> interval_cases k <;> simp_all [Array3.get, Array3.lin])
    _ rfl _ rfl
    (by
      intro a ha
      simp only [Array3.numElements] at ha
      interval_cases a <;>
        simp [Array3.numElements, yw_lhs, yw_rhs, AC_matrix_block3, Array3.get, Array3.lin,
          abs_diff, Finset.sum_range_succ])
  exact ⟨phi, hphi, hget 0 1 1 (by decide) (by decide) (by decide), hvar⟩

end yule_walker_claims

section zeta_proofs

theorem for_pure_add (f : Nat → ℚ) (n : Nat) (s : ℚ) :
    for_pure n (fun k sum => sum + f k) s = s + ∑ k ∈ Finset.range n, f k := by
  induction n with
  | zero => simp [for_pure]
  | succ n ih => rw [for_pure_succ, ih, Finset.sum_range_succ, add_assoc]

theorem zeta_sum_eq (phi zeta : Array3 ℚ) (t x y : Nat) :
    zeta_sum phi zeta t x y =
      ∑ k ∈ Finset.range (min (t + 1) phi.n0), ∑ i ∈ Finset.range (min (x + 1) phi.n1),
        ∑ j ∈ Finset.range (min (y + 1) phi.n2),
          phi.get k i j * zeta.get (t - k) (x - i) (y - j) := by
  unfold zeta_sum
  simp only [for_pure_add, zero_add]

/-- Storage offsets of cells inside the shape determine the cell. -/
theorem lin_inj {n1 n2 t x y t' x' y' : Nat} (hx : x < n1) (hy : y < n2) (hx' : x' < n1)
    (hy' : y' < n2) (h : (t * n1 + x) * n2 + y = (t' * n1 + x') * n2 + y') :
    t = t' ∧ x = x' ∧ y = y' := by
  have h2 : 0 < n2 := by omega
  have h1 : 0 < n1 := by omega
  have e2 : y = y' := by
    have := congrArg (fun s => s % n2) h
    simpa [Nat.add_mod, Nat.mul_mod, Nat.mod_eq_of_lt hy, Nat.mod_eq_of_lt hy'] using this
  subst e2
  have he : t * n1 + x = t' * n1 + x' :=
    Nat.eq_of_mul_eq_mul_right h2 (Nat.add_right_cancel h)
  have e1 : x = x' := by
    have := congrArg (fun s => s % n1) he
    simpa [Nat.add_mod, Nat.mul_mod, Nat.mod_eq_of_lt hx, Nat.mod_eq_of_lt hx'] using this
  subst e1
  exact ⟨Nat.eq_of_mul_eq_mul_right h1 (Nat.add_right_cancel he), rfl, rfl⟩

/-- A cell the recurrence reads has a storage offset not above the cell itself. -/
theorem lin_prior_le {n1 n2 t x y k i j : Nat} (hi : i ≤ x) (hj : j ≤ y) :
    ((t - k) * n1 + (x - i)) * n2 + (y - j) ≤ (t * n1 + x) * n2 + y := by
  have h1 : (t - k) * n1 ≤ t * n1 := Nat.mul_le_mul_right _ (Nat.sub_le _ _)
  have h2 : (t - k) * n1 + (x - i) ≤ t * n1 + x := by omega
  have h3 := Nat.mul_le_mul_right n2 h2
  omega

/-- A causally prior cell has a strictly smaller storage offset. -/
theorem lin_prior_lt {n1 n2 t x y k i j : Nat} (hk : k ≤ t) (hi : i ≤ x) (hj : j ≤ y)
    (hx : x < n1) (hy : y < n2) (hne : ¬ (k = 0 ∧ i = 0 ∧ j = 0)) :
    ((t - k) * n1 + (x - i)) * n2 + (y - j) < (t * n1 + x) * n2 + y := by
  by_cases hk0 : k = 0
  · subst hk0
    by_cases hi0 : i = 0
    · subst hi0
      have : j ≠ 0 := fun h => hne ⟨rfl, rfl, h⟩
      simp only [Nat.sub_zero]
      omega
    · have h2 : t * n1 + (x - i) + 1 ≤ t * n1 + x := by omega
      have h3 := Nat.mul_le_mul_right n2 h2
      simp only [Nat.sub_zero]
      have h4 : (t * n1 + (x - i) + 1) * n2 = (t * n1 + (x - i)) * n2 + n2 := by ring
      omega
  · have h1 : (t - k + 1) * n1 ≤ t * n1 := Nat.mul_le_mul_right _ (by omega)
    have h1' : (t - k + 1) * n1 = (t - k) * n1 + n1 := by ring
    have h2 : (t - k) * n1 + (x - i) + 1 ≤ t * n1 + x := by omega
    have h3 := Nat.mul_le_mul_right n2 h2
    have h4 : ((t - k) * n1 + (x - i) + 1) * n2 = ((t - k) * n1 + (x - i)) * n2 + n2 := by ring
    omega

theorem zeta_inv_init (phi eps : Array3 ℚ) : zeta_inv phi eps eps 0 :=
  ⟨⟨rfl, rfl, rfl⟩, rfl, fun _ _ _ _ _ h => absurd h (Nat.not_lt_zero _), fun _ _ => rfl⟩

/-- The recurrence of a cell only reads cells whose storage offset is not above it. -/
theorem zeta_recurrence_congr (phi eps z z' : Array3 ℚ) (t x y : Nat)
    (h : ∀ k i j, k ≤ t → i ≤ x → j ≤ y → ¬ (k = 0 ∧ i = 0 ∧ j = 0) →
      z'.get (t - k) (x - i) (y - j) = z.get (t - k) (x - i) (y - j)) :
    zeta_recurrence phi eps z' t x y = zeta_recurrence phi eps z t x y := by
  unfold zeta_recurrence
  congr 1
  apply Finset.sum_congr rfl
  intro k hk
  apply Finset.sum_congr rfl
  intro i hi
  apply Finset.sum_congr rfl
  intro j hj
  rw [Finset.mem_range] at hk hi hj
  by_cases h0 : k = 0 ∧ i = 0 ∧ j = 0
  · simp only [h0, and_self, if_true]
  · simp only [h0, if_false]
    rw [h k i j (by omega) (by omega) (by omega) h0]

/-- One cell update moves the invariant one storage offset forward. -/
theorem zeta_inv_step (phi eps z : Array3 ℚ) (hwf : eps.WF) (t x y : Nat) (ht : t < eps.n0)
    (hx : x < eps.n1) (hy : y < eps.n2)
    (hinv : zeta_inv phi eps z ((t * eps.n1 + x) * eps.n2 + y)) :
    zeta_inv phi eps (zeta_cell phi z t x y) ((t * eps.n1 + x) * eps.n2 + y + 1) := by
  obtain ⟨⟨s0, s1, s2⟩, hlen, hdone, hrest⟩ := hinv
  have hP : (t * eps.n1 + x) * eps.n2 + y < z.data.length := by
    rw [hlen, hwf]; exact lin_lt ht hx hy
  -- reading the updated array
  have hread : ∀ q, (zeta_cell phi z t x y).data.getD q 0 =
      if q = (t * eps.n1 + x) * eps.n2 + y then z.get t x y + zeta_sum phi z t x y
      else z.data.getD q 0 := by
    intro q
    simp only [zeta_cell, Array3.set, Array3.lin, s1, s2, List.getD_eq_getElem?_getD,
      List.getElem?_set]
    by_cases hq : (t * eps.n1 + x) * eps.n2 + y = q
    · subst hq
      simp [hP]
    · have hq' : ¬ q = (t * eps.n1 + x) * eps.n2 + y := fun h => hq h.symm
      simp [hq, hq']
  have hget : ∀ t' x' y', (zeta_cell phi z t x y).get t' x' y' =
      (zeta_cell phi z t x y).data.getD ((t' * eps.n1 + x') * eps.n2 + y') 0 := by
    intro t' x' y'
    simp only [Array3.get, Array3.lin, zeta_cell, Array3.set, s1, s2]
    rfl
  have hgetz : ∀ t' x' y', z.get t' x' y' =
      z.data.getD ((t' * eps.n1 + x') * eps.n2 + y') 0 := by
    intro t' x' y'
    simp only [Array3.get, Array3.lin, s1, s2]
    rfl
  have hgete : ∀ t' x' y', eps.get t' x' y' =
      eps.data.getD ((t' * eps.n1 + x') * eps.n2 + y') 0 := fun _ _ _ => rfl
  have hold : ∀ t' x' y', (t' * eps.n1 + x') * eps.n2 + y' < (t * eps.n1 + x) * eps.n2 + y →
      (zeta_cell phi z t x y).get t' x' y' = z.get t' x' y' := by
    intro t' x' y' hlt
    rw [hget, hread, if_neg (by omega), hgetz]
  refine ⟨⟨s0, s1, s2⟩, by simp [zeta_cell, Array3.set, hlen], ?_, ?_⟩
  · intro t' x' y' hx' hy' hlt
    by_cases heq : (t' * eps.n1 + x') * eps.n2 + y' = (t * eps.n1 + x) * eps.n2 + y
    · obtain ⟨rfl, rfl, rfl⟩ := lin_inj hx' hy' hx hy heq
      rw [hget, hread, if_pos rfl, zeta_sum_eq]
      have hself : z.get t' x' y' = eps.get t' x' y' := by
        rw [hgetz, hgete]; exact hrest _ (le_refl _)
      rw [hself]
      unfold zeta_recurrence
      congr 1
      apply Finset.sum_congr rfl
      intro k hk
      apply Finset.sum_congr rfl
      intro i hi
      apply Finset.sum_congr rfl
      intro j hj
      rw [Finset.mem_range] at hk hi hj
      by_cases h0 : k = 0 ∧ i = 0 ∧ j = 0
      · obtain ⟨rfl, rfl, rfl⟩ := h0
        simp only [and_self, if_true, Nat.sub_zero, hself]
      · simp only [h0, if_false]
        rw [hold _ _ _ (lin_prior_lt (by omega) (by omega) (by omega) hx' hy' h0)]
    · have hlt' : (t' * eps.n1 + x') * eps.n2 + y' < (t * eps.n1 + x) * eps.n2 + y := by omega
      rw [hold _ _ _ hlt', hdone t' x' y' hx' hy' hlt']
      symm
      apply zeta_recurrence_congr phi eps z _ t' x' y'
      intro k i j _ hi hj _
      exact hold _ _ _ (lt_of_le_of_lt (lin_prior_le hi hj) hlt')
  · intro q hq
    rw [hread, if_neg (by omega)]
    exact hrest q (by omega)

/-- The innermost of the three outer loops: the cells `(t,x,0), …, (t,x,n-1)`. -/
theorem zeta_inv_y_loop (phi eps z : Array3 ℚ) (hwf : eps.WF) (t x : Nat) (ht : t < eps.n0)
    (hx : x < eps.n1) (hinv : zeta_inv phi eps z ((t * eps.n1 + x) * eps.n2))
    (n : Nat) (hn : n ≤ eps.n2) :
    zeta_inv phi eps (for_pure n (fun y zeta => zeta_cell phi zeta t x y) z)
      ((t * eps.n1 + x) * eps.n2 + n) := by
  induction n with
  | zero => exact hinv
  | succ n ih =>
    rw [for_pure_succ]
    exact zeta_inv_step phi eps _ hwf t x n ht hx (by omega) (ih (by omega))

/-- The middle loop: the rows `(t,0,·), …, (t,n-1,·)`. -/
theorem zeta_inv_x_loop (phi eps z : Array3 ℚ) (hwf : eps.WF) (t : Nat) (ht : t < eps.n0)
    (hinv : zeta_inv phi eps z (t * eps.n1 * eps.n2)) (n : Nat) (hn : n ≤ eps.n1) :
    zeta_inv phi eps (for_pure n (fun x zeta =>
      for_pure eps.n2 (fun y zeta => zeta_cell phi zeta t x y) zeta) z)
      ((t * eps.n1 + n) * eps.n2) := by
  induction n with
  | zero => simpa using hinv
  | succ n ih =>
    rw [for_pure_succ]
    have h := zeta_inv_y_loop phi eps _ hwf t n ht (by omega) (ih (by omega)) eps.n2
      (le_refl _)
    have e : (t * eps.n1 + n) * eps.n2 + eps.n2 = (t * eps.n1 + (n + 1)) * eps.n2 := by ring
    rw [e] at h
    exact h

/-- The outer loop: the planes `(0,·,·), …, (n-1,·,·)`. -/
theorem zeta_inv_t_loop (phi eps : Array3 ℚ) (hwf : eps.WF) (n : Nat) (hn : n ≤ eps.n0) :
    zeta_inv phi eps (for_pure n (fun t zeta =>
      for_pure eps.n1 (fun x zeta =>
        for_pure eps.n2 (fun y zeta => zeta_cell phi zeta t x y) zeta) zeta) eps)
      (n * eps.n1 * eps.n2) := by
  induction n with
  | zero => simpa using zeta_inv_init phi eps
  | succ n ih =>
    rw [for_pure_succ]
    have h := zeta_inv_x_loop phi eps _ hwf n (by omega) (ih (by omega)) eps.n1 (le_refl _)
    have e : (n * eps.n1 + eps.n1) * eps.n2 = (n + 1) * eps.n1 * eps.n2 := by ring
    rw [e] at h
    exact h

/-- After `generate_zeta` every cell satisfies the recurrence. -/
theorem generate_zeta_inv (phi eps : Array3 ℚ) (hwf : eps.WF) :
    zeta_inv phi eps (generate_zeta phi eps) (eps.n0 * eps.n1 * eps.n2) :=
  zeta_inv_t_loop phi eps hwf eps.n0 (le_refl _)

/-- Claim C6: for every AR coefficient tensor `phi` of shape `(f0,f1,f2)` and every noise
tensor `eps` of shape `(T,X,Y)`, the tensor `out` left by `generate_zeta` has the shape of
`eps` and satisfies, at every cell `(t,x,y)`,
`out(t,x,y) = eps(t,x,y) + Σ_{k<min(t+1,f0)} Σ_{i<min(x+1,f1)} Σ_{j<min(y+1,f2)}
phi(k,i,j) * Z(t-k,x-i,y-j)`, where `Z` is the final value `out` at every causally prior
cell (`(k,i,j) ≠ (0,0,0)`) and the raw noise `eps(t,x,y)` at the cell itself. -/
theorem generate_zeta_recurrence (phi eps : Array3 ℚ) (hwf : eps.WF) :
    ((generate_zeta phi eps).n0 = eps.n0 ∧ (generate_zeta phi eps).n1 = eps.n1 ∧
      (generate_zeta phi eps).n2 = eps.n2 ∧ (generate_zeta phi eps).WF) ∧
    ∀ t x y, t < eps.n0 → x < eps.n1 → y < eps.n2 →
      (generate_zeta phi eps).get t x y =
        eps.get t x y +
          ∑ k ∈ Finset.range (min (t + 1) phi.n0),
            ∑ i ∈ Finset.range (min (x + 1) phi.n1),
              ∑ j ∈ Finset.range (min (y + 1) phi.n2),
                phi.get k i j *
                  (if k = 0 ∧ i = 0 ∧ j = 0 then eps.get t x y
                   else (generate_zeta phi eps).get (t - k) (x - i) (y - j)) := by
  obtain ⟨⟨s0, s1, s2⟩, hlen, hdone, -⟩ := generate_zeta_inv phi eps hwf
  refine ⟨⟨s0, s1, s2, ?_⟩, ?_⟩
  · unfold Array3.WF
    rw [hlen, s0, s1, s2]
    exact hwf
  · intro t x y ht hx hy
    exact hdone t x y hx hy (lin_lt ht hx hy)

/-- Claim C6 at a `2×2×1` filter and a `3×2×1` noise tensor, cell `(1,1,0)`. -/
theorem generate_zeta_recurrence_witness :
    (generate_zeta ⟨2, 2, 1, [0, 1 / 2, 1 / 3, 1 / 4]⟩ ⟨3, 2, 1, [1, 2, 3, 4, 5, 6]⟩).get 1 1 0
      = 4 + ((1 / 2) * (generate_zeta ⟨2, 2, 1, [0, 1 / 2, 1 / 3, 1 / 4]⟩
              ⟨3, 2, 1, [1, 2, 3, 4, 5, 6]⟩).get 1 0 0
          + (1 / 3) * (generate_zeta ⟨2, 2, 1, [0, 1 / 2, 1 / 3, 1 / 4]⟩
              ⟨3, 2, 1, [1, 2, 3, 4, 5, 6]⟩).get 0 1 0
          + (1 / 4) * (generate_zeta ⟨2, 2, 1, [0, 1 / 2, 1 / 3, 1 / 4]⟩
              ⟨3, 2, 1, [1, 2, 3, 4, 5, 6]⟩).get 0 0 0) := by
  have h := (generate_zeta_recurrence ⟨2, 2, 1, [0, 1 / 2, 1 / 3, 1 / 4]⟩
    ⟨3, 2, 1, [1, 2, 3, 4, 5, 6]⟩ (by decide)).2 1 1 0 (by decide) (by decide) (by decide)
  rw [h]
  simp [Finset.sum_range_succ, Array3.get, Array3.lin]
  ring

/-- Claim C7 as stated fails: with the `1×1×1` filter `phi(0,0,0) = 1` and the noise
`eps(0,0,0) = 1`, the window of the cell `(0,0,0)` holds the cell itself, the accumulated
sum is `1`, and `generate_zeta` leaves `2` there, not the raw draw `1`. -/
theorem generate_zeta_origin_counterexample :
    zeta_sum ⟨1, 1, 1, [1]⟩ ⟨1, 1, 1, [1]⟩ 0 0 0 = 1 ∧
    (generate_zeta ⟨1, 1, 1, [1]⟩ ⟨1, 1, 1, [1]⟩).get 0 0 0 = 2 ∧
    (generate_zeta ⟨1, 1, 1, [1]⟩ ⟨1, 1, 1, [1]⟩).get 0 0 0 ≠
      (⟨1, 1, 1, [1]⟩ : Array3 ℚ).get 0 0 0 := by
  refine ⟨?_, ?_, ?_⟩
  · simp [zeta_sum, for_pure, Array3.get, Array3.lin]
  · simp [generate_zeta, zeta_cell, zeta_sum, for_pure, Array3.get, Array3.set, Array3.lin]
    norm_num
  · simp [generate_zeta, zeta_cell, zeta_sum, for_pure, Array3.get, Array3.set, Array3.lin]

/-- Claim C7, amended: for every AR coefficient tensor `phi` with all extents `≥ 1` and
every noise tensor `eps` with at least one cell, the sum accumulated for the cell `(0,0,0)`
is the single term `phi(0,0,0) * eps(0,0,0)`, so `generate_zeta` leaves
`eps(0,0,0) + phi(0,0,0) * eps(0,0,0)` there; when `phi(0,0,0) = 0` (as in every tensor
returned by `compute_AR_coefs`) that is the raw noise draw `eps(0,0,0)` unchanged. -/
theorem generate_zeta_origin (phi eps : Array3 ℚ) (hwf : eps.WF)
    (hphi : 0 < phi.n0 ∧ 0 < phi.n1 ∧ 0 < phi.n2)
    (heps : 0 < eps.n0 ∧ 0 < eps.n1 ∧ 0 < eps.n2) :
    zeta_sum phi eps 0 0 0 = phi.get 0 0 0 * eps.get 0 0 0 ∧
    (generate_zeta phi eps).get 0 0 0 = eps.get 0 0 0 + phi.get 0 0 0 * eps.get 0 0 0 ∧
    (phi.get 0 0 0 = 0 → (generate_zeta phi eps).get 0 0 0 = eps.get 0 0 0) := by
  obtain ⟨-, -, hdone, -⟩ := generate_zeta_inv phi eps hwf
  have h := hdone 0 0 0 heps.2.1 heps.2.2
    (by simpa using Nat.mul_pos (Nat.mul_pos heps.1 heps.2.1) heps.2.2)
  have m0 : min (0 + 1) phi.n0 = 1 := by have := hphi.1; omega
  have m1 : min (0 + 1) phi.n1 = 1 := by have := hphi.2.1; omega
  have m2 : min (0 + 1) phi.n2 = 1 := by have := hphi.2.2; omega
  have hsum : zeta_sum phi eps 0 0 0 = phi.get 0 0 0 * eps.get 0 0 0 := by
    rw [zeta_sum_eq, m0, m1, m2]
    simp
  have hval : (generate_zeta phi eps).get 0 0 0 =
      eps.get 0 0 0 + phi.get 0 0 0 * eps.get 0 0 0 := by
    rw [h]
    unfold zeta_recurrence
    rw [m0, m1, m2]
    simp
  refine ⟨hsum, hval, ?_⟩
  intro h0
  rw [hval, h0]
  simp

/-- Claim C7, amended, at a `2×1×1` filter with `phi(0,0,0) = 0` and a `2×1×1` noise
tensor. -/
theorem generate_zeta_origin_witness :
    (generate_zeta ⟨2, 1, 1, [0, 1 / 2]⟩ ⟨2, 1, 1, [3, 5]⟩).get 0 0 0 = 3 := by
  have h := (generate_zeta_origin ⟨2, 1, 1, [0, 1 / 2]⟩ ⟨2, 1, 1, [3, 5]⟩ (by decide)
    ⟨by decide, by decide, by decide⟩ ⟨by decide, by decide, by decide⟩).2.2
    (by simp [Array3.get, Array3.lin])
  rw [h]
  simp [Array3.get, Array3.lin]

end zeta_proofs

section trim_proofs

variable {α : Type} [Inhabited α]

theorem Array3.get_ofFn (n0 n1 n2 : Nat) (f : Nat → Nat → Nat → α) (i j k : Nat)
    (hi : i < n0) (hj : j < n1) (hk : k < n2) :
    (Array3.ofFn n0 n1 n2 f).get i j k = f i j k := by
  have hlt := lin_lt hi hj hk
  have h2 : 0 < n2 := by omega
  have h1 : 0 < n1 := by omega
  have e3 : ((i * n1 + j) * n2 + k) % n2 = k := by
    rw [Nat.add_comm, Nat.add_mul_mod_self_right, Nat.mod_eq_of_lt hk]
  have e2 : ((i * n1 + j) * n2 + k) / n2 = i * n1 + j := by
    rw [Nat.add_comm, Nat.add_mul_div_right _ _ h2, Nat.div_eq_of_lt hk, Nat.zero_add]
  have e1 : (i * n1 + j) % n1 = j := by
    rw [Nat.add_comm, Nat.add_mul_mod_self_right, Nat.mod_eq_of_lt hj]
  have e0 : ((i * n1 + j) * n2 + k) / (n1 * n2) = i := by
    rw [Nat.mul_comm n1 n2, ← Nat.div_div_eq_div_mul, e2, Nat.add_comm,
      Nat.add_mul_div_right _ _ h1, Nat.div_eq_of_lt hj, Nat.zero_add]
  unfold Array3.get Array3.ofFn Array3.lin
  simp only []
  rw [List.getD_eq_getElem?_getD, List.getElem?_map, List.getElem?_range hlt]
  simp only [Option.map_some', Option.getD_some, e0, e1, e2, e3]

theorem trim_zeta_spec (zeta2 : Array3 α) (z0 z1 z2 : Nat)
    (h0 : 1 ≤ z0 ∧ z0 ≤ zeta2.n0) (h1 : 1 ≤ z1 ∧ z1 ≤ zeta2.n1)
    (h2 : 1 ≤ z2 ∧ z2 ≤ zeta2.n2) :
    ∃ r, trim_zeta zeta2 ⟨z0, z1, z2⟩ = Except.ok r ∧
      (r.n0 = z0 ∧ r.n1 = z1 ∧ r.n2 = z2) ∧ r.WF ∧
      ∀ i j k, i < z0 → j < z1 → k < z2 →
        r.get i j k = zeta2.get (i + (zeta2.n0 - z0)) (j + (zeta2.n1 - z1))
          (k + (zeta2.n2 - z2)) := by
  have c : (0 : Int) ≤ (zeta2.n0 : Int) - z0 ∧ (zeta2.n0 : Int) - z0 < zeta2.n0 ∧
      (0 : Int) ≤ (zeta2.n1 : Int) - z1 ∧ (zeta2.n1 : Int) - z1 < zeta2.n1 ∧
      (0 : Int) ≤ (zeta2.n2 : Int) - z2 ∧ (zeta2.n2 : Int) - z2 < zeta2.n2 := by omega
  have t0 : ((zeta2.n0 : Int) - z0).toNat = zeta2.n0 - z0 := by omega
  have t1 : ((zeta2.n1 : Int) - z1).toNat = zeta2.n1 - z1 := by omega
  have t2 : ((zeta2.n2 : Int) - z2).toNat = zeta2.n2 - z2 := by omega
  have d0 : zeta2.n0 - (zeta2.n0 - z0) = z0 := by omega
  have d1 : zeta2.n1 - (zeta2.n1 - z1) = z1 := by omega
  have d2 : zeta2.n2 - (zeta2.n2 - z2) = z2 := by omega
  refine ⟨Array3.ofFn z0 z1 z2 (fun i j k =>
      zeta2.get (i + (zeta2.n0 - z0)) (j + (zeta2.n1 - z1)) (k + (zeta2.n2 - z2))), ?_,
    ⟨rfl, rfl, rfl⟩, by simp [Array3.WF, Array3.ofFn], ?_⟩
  · unfold trim_zeta Array3.slice_to_end
    simp only [size3.get]
    rw [if_pos c, t0, t1, t2, d0, d1, d2]
    rfl
  · intro i j k hi hj hk
    exact Array3.get_ofFn z0 z1 z2 _ i j k hi hj hk

theorem for_pure_preserves {σ : Type} (P : σ → Prop) (body : Nat → σ → σ)
    (h : ∀ k s, P s → P (body k s)) (n : Nat) (init : σ) (h0 : P init) :
    P (for_pure n body init) := by
  induction n with
  | zero => exact h0
  | succ n ih => exact h n _ ih

theorem generate_zeta_shape (phi zeta : Array3 ℚ) :
    (generate_zeta phi zeta).n0 = zeta.n0 ∧ (generate_zeta phi zeta).n1 = zeta.n1 ∧
      (generate_zeta phi zeta).n2 = zeta.n2 := by
  unfold generate_zeta
  apply for_pure_preserves (fun z : Array3 ℚ => z.n0 = zeta.n0 ∧ z.n1 = zeta.n1 ∧ z.n2 = zeta.n2)
  · intro t z hz
    apply for_pure_preserves
      (fun z : Array3 ℚ => z.n0 = zeta.n0 ∧ z.n1 = zeta.n1 ∧ z.n2 = zeta.n2)
    · intro x z hz
      apply for_pure_preserves
        (fun z : Array3 ℚ => z.n0 = zeta.n0 ∧ z.n1 = zeta.n1 ∧ z.n2 = zeta.n2)
      · intro y z hz
        exact hz
      · exact hz
    · exact hz
  · exact ⟨rfl, rfl, rfl⟩

/-- Claim C8: for a tensor `zeta2` of shape `(Z0,Z1,Z2)` and a requested size
`(z0,z1,z2)` with `1 ≤ z_a ≤ Z_a` on each axis, `trim_zeta` returns a tensor of shape
exactly `(z0,z1,z2)` with `trimmed(i,j,k) = zeta2(i+Z0-z0, j+Z1-z1, k+Z2-z2)` (the last
`z_a` indices of each axis are kept); trimming the tensor left by `generate_zeta`, as the
pipeline does, gives the requested (non-enlarged) shape. -/
theorem trim_zeta_keeps_last (zeta2 : Array3 ℚ) (z0 z1 z2 : Nat)
    (h0 : 1 ≤ z0 ∧ z0 ≤ zeta2.n0) (h1 : 1 ≤ z1 ∧ z1 ≤ zeta2.n1)
    (h2 : 1 ≤ z2 ∧ z2 ≤ zeta2.n2) :
    (∃ r, trim_zeta zeta2 ⟨z0, z1, z2⟩ = Except.ok r ∧
      (r.n0 = z0 ∧ r.n1 = z1 ∧ r.n2 = z2) ∧ r.WF ∧
      ∀ i j k, i < z0 → j < z1 → k < z2 →
        r.get i j k = zeta2.get (i + (zeta2.n0 - z0)) (j + (zeta2.n1 - z1))
          (k + (zeta2.n2 - z2))) ∧
    ∀ phi : Array3 ℚ, ∃ r, trim_zeta (generate_zeta phi zeta2) ⟨z0, z1, z2⟩ = Except.ok r ∧
      (r.n0 = z0 ∧ r.n1 = z1 ∧ r.n2 = z2) ∧
      ∀ i j k, i < z0 → j < z1 → k < z2 →
        r.get i j k = (generate_zeta phi zeta2).get (i + (zeta2.n0 - z0))
          (j + (zeta2.n1 - z1)) (k + (zeta2.n2 - z2)) := by
  refine ⟨trim_zeta_spec zeta2 z0 z1 z2 h0 h1 h2, ?_⟩
  intro phi
  obtain ⟨s0, s1, s2⟩ := generate_zeta_shape phi zeta2
  obtain ⟨r, hr, hs, -, hg⟩ := trim_zeta_spec (generate_zeta phi zeta2) z0 z1 z2
    (by rw [s0]; exact h0) (by rw [s1]; exact h1) (by rw [s2]; exact h2)
  rw [s0, s1, s2] at hg
  exact ⟨r, hr, hs, hg⟩

/-- Claim C8 at a tensor of shape `(10,10,10)` trimmed to `(6,6,6)`:
`trimmed(i,j,k) = enlarged(i+4,j+4,k+4)`. -/
theorem trim_zeta_keeps_last_witness :
    ∃ r, trim_zeta (⟨10, 10, 10, (List.range 1000).map (fun p : Nat => (p : ℚ))⟩ : Array3 ℚ)
        ⟨6, 6, 6⟩ = Except.ok r ∧
      (r.n0 = 6 ∧ r.n1 = 6 ∧ r.n2 = 6) ∧
      ∀ i j k, i < 6 → j < 6 → k < 6 →
        r.get i j k = (⟨10, 10, 10, (List.range 1000).map (fun p : Nat => (p : ℚ))⟩ :
          Array3 ℚ).get (i + 4) (j + 4) (k + 4) := by
  obtain ⟨r, hr, hs, -, hg⟩ := (trim_zeta_keeps_last
    (⟨10, 10, 10, (List.range 1000).map (fun p : Nat => (p : ℚ))⟩ : Array3 ℚ) 6 6 6
    ⟨by decide, by decide⟩ ⟨by decide, by decide⟩ ⟨by decide, by decide⟩).1
  exact ⟨r, hr, hs, hg⟩

end trim_proofs

section driver_proofs

theorem wrap32_zero : wrap32 0 = 0 := by decide

theorem size3.product_ne_zero {sz : size3} (h : sz.product ≠ 0) :
    sz.s0 ≠ 0 ∧ sz.s1 ≠ 0 ∧ sz.s2 ≠ 0 := by
  unfold size3.product at h
  refine ⟨?_, ?_, ?_⟩
  · intro h0
    apply h
    rw [h0, Int.zero_mul, wrap32_zero, Int.zero_mul, wrap32_zero]
  · intro h1
    apply h
    rw [h1, Int.mul_zero, wrap32_zero, Int.zero_mul, wrap32_zero]
  · intro h2
    apply h
    rw [h2, Int.mul_zero, wrap32_zero]

/-- The configurations `validate_parameters` accepts. -/
theorem validate_parameters_ok_iff (m : Autoreg_model) :
    validate_parameters m = Except.ok () ↔
      m.zsize.product ≠ 0 ∧ m.zdelta.product ≠ 0 ∧ m.acf_size.product ≠ 0 ∧
      (m.zsize.s0 ≤ m.zsize2.s0 ∧ m.zsize.s1 ≤ m.zsize2.s1 ∧ m.zsize.s2 ≤ m.zsize2.s2) ∧
      m.fsize.s0 ≤ m.zsize.s0 := by
  unfold validate_parameters check_non_zero check_non_zero_T
  by_cases c1 : m.zsize.product = 0
  · simp [c1, bind, Except.bind, throw, throwThe, MonadExceptOf.throw]
  by_cases c2 : m.zdelta.product = 0
  · simp [c1, c2, bind, Except.bind, throw, throwThe, MonadExceptOf.throw, pure, Except.pure]
  by_cases c3 : m.acf_size.product = 0
  · simp [c1, c2, c3, bind, Except.bind, throw, throwThe, MonadExceptOf.throw, pure,
      Except.pure]
  by_cases d0 : m.zsize2.s0 < m.zsize.s0
  · simp [c1, c2, c3, d0, for_loop, size3.get, bind, Except.bind, throw, throwThe,
      MonadExceptOf.throw, pure, Except.pure]
  by_cases d1 : m.zsize2.s1 < m.zsize.s1
  · simp [c1, c2, c3, d0, d1, for_loop, size3.get, bind, Except.bind, throw, throwThe,
      MonadExceptOf.throw, pure, Except.pure]
  by_cases d2 : m.zsize2.s2 < m.zsize.s2
  · simp [c1, c2, c3, d0, d1, d2, for_loop, size3.get, bind, Except.bind, throw, throwThe,
      MonadExceptOf.throw, pure, Except.pure]
  by_cases e : m.fsize.s0 > m.zsize.s0
  · simp [c1, c2, c3, d0, d1, d2, e, for_loop, size3.get, bind, Except.bind, throw, throwThe,
      MonadExceptOf.throw, pure, Except.pure]
  · simp [c1, c2, c3, d0, d1, d2, e, for_loop, size3.get, bind, Except.bind, pure,
      Except.pure]
    omega

/-- What acceptance by `validate_parameters` does establish: every component of `zsize`
and of `acf_size` is non-zero, `fsize[0] ≤ zsize[0]` and `zsize2[a] ≥ zsize[a]` on every
axis; a size without negative components then has all components `≥ 1`. -/
theorem validate_parameters_accepted (m : Autoreg_model)
    (hok : validate_parameters m = Except.ok ()) :
    (m.zsize.s0 ≠ 0 ∧ m.zsize.s1 ≠ 0 ∧ m.zsize.s2 ≠ 0) ∧
    (m.acf_size.s0 ≠ 0 ∧ m.acf_size.s1 ≠ 0 ∧ m.acf_size.s2 ≠ 0) ∧
    m.fsize.s0 ≤ m.zsize.s0 ∧
    (m.zsize2.s0 ≥ m.zsize.s0 ∧ m.zsize2.s1 ≥ m.zsize.s1 ∧ m.zsize2.s2 ≥ m.zsize.s2) ∧
    (0 ≤ m.zsize.s0 ∧ 0 ≤ m.zsize.s1 ∧ 0 ≤ m.zsize.s2 →
      1 ≤ m.zsize.s0 ∧ 1 ≤ m.zsize.s1 ∧ 1 ≤ m.zsize.s2) ∧
    (0 ≤ m.acf_size.s0 ∧ 0 ≤ m.acf_size.s1 ∧ 0 ≤ m.acf_size.s2 →
      1 ≤ m.acf_size.s0 ∧ 1 ≤ m.acf_size.s1 ∧ 1 ≤ m.acf_size.s2) := by
  obtain ⟨hz, -, ha, hz2, hf⟩ := (validate_parameters_ok_iff m).mp hok
  have hz' := size3.product_ne_zero hz
  have ha' := size3.product_ne_zero ha
  refine ⟨hz', ha', hf, ⟨hz2.1, hz2.2.1, hz2.2.2⟩, ?_, ?_⟩
  · intro h
    omega
  · intro h
    omega

/-- Claim C9 at a failing input: the configuration with the default `zsize = (768,24,24)`,
`zsize2 = (921,28,28)` and `acf_size = fsize = (-10,-10,10)` is accepted by
`validate_parameters` (the product of the components, `1000`, is not zero and
`fsize[0] = -10` does not exceed `zsize[0]`), although `acf_size[0] = -10` is not `≥ 1`. -/
theorem validate_parameters_accepts_negative :
    validate_parameters
      { zsize := ⟨768, 24, 24⟩, zdelta := ⟨1, 1, 1⟩, acf_size := ⟨-10, -10, 10⟩,
        acf_delta := ⟨1, 1, 1⟩, fsize := ⟨-10, -10, 10⟩, zsize2 := ⟨921, 28, 28⟩,
        alpha := 3 / 50, beta := 4 / 5, gamm := 1 } = Except.ok () ∧
    (⟨-10, -10, 10⟩ : size3).product = 1000 ∧
    ¬ (1 ≤ (⟨-10, -10, 10⟩ : size3).s0) := by
  refine ⟨?_, ?_, ?_⟩
  · rw [validate_parameters_ok_iff]
    simp [size3.product, Vec3.product, wrap32]
  · simp [size3.product, wrap32]
  · decide

theorem any_map_range {α : Type} (isnan : α → Bool) (draws : Nat → α) (n : Nat) :
    ((List.range n).map draws).any isnan = true ↔ ∃ p, p < n ∧ isnan (draws p) = true := by
  rw [List.any_eq_true]
  constructor
  · rintro ⟨v, hv, hnan⟩
    obtain ⟨p, hp, rfl⟩ := List.mem_map.mp hv
    exact ⟨p, List.mem_range.mp hp, hnan⟩
  · rintro ⟨p, hp, hnan⟩
    exact ⟨draws p, List.mem_map.mpr ⟨p, List.mem_range.mpr hp, rfl⟩, hnan⟩

/-- The three ways `generate_white_noise` can end. -/
theorem generate_white_noise_eq {α : Type} [LinearOrder α] [Zero α] (isnan : α → Bool)
    (draws : Nat → α) (size : size3) (variance : α) :
    generate_white_noise isnan draws size variance =
      if variance < 0 then Except.error Error.variance_negative
      else if ∃ p, p < size.s0.toNat * size.s1.toNat * size.s2.toNat ∧ isnan (draws p) = true
        then Except.error Error.noise_nan
      else Except.ok ⟨size.s0.toNat, size.s1.toNat, size.s2.toNat,
        (List.range (size.s0.toNat * size.s1.toNat * size.s2.toNat)).map draws⟩ := by
  unfold generate_white_noise
  by_cases hv : variance < 0
  · rw [if_pos hv, if_pos hv]
    rfl
  · rw [if_neg hv, if_neg hv]
    simp only [size3.get]
    by_cases hn : ∃ p, p < size.s0.toNat * size.s1.toNat * size.s2.toNat ∧
        isnan (draws p) = true
    · rw [if_pos hn, if_pos ((any_map_range isnan draws _).mpr hn)]
      rfl
    · rw [if_neg hn, if_neg (fun h => hn ((any_map_range isnan draws _).mp h))]
      rfl

/-- Claim C10: for every size triple, target variance and sequence of drawn samples,
`generate_white_noise` raises the invalid-input error whenever `variance < 0` (whatever
the samples are), raises the corrupted-draw error when `variance ≥ 0` and one of the
`n0*n1*n2` drawn samples is NaN, and otherwise returns a tensor that holds the drawn
samples in storage order and has exactly the requested shape; it raises in no other
case. -/
theorem generate_white_noise_cases {α : Type} [LinearOrder α] [Zero α] (isnan : α → Bool)
    (draws : Nat → α) (size : size3) (variance : α) :
    (variance < 0 →
      generate_white_noise isnan draws size variance =
        Except.error Error.variance_negative) ∧
    (0 ≤ variance →
      (∃ p, p < size.s0.toNat * size.s1.toNat * size.s2.toNat ∧ isnan (draws p) = true) →
      generate_white_noise isnan draws size variance = Except.error Error.noise_nan) ∧
    (0 ≤ variance →
      (∀ p, p < size.s0.toNat * size.s1.toNat * size.s2.toNat → isnan (draws p) = false) →
      ∃ eps, generate_white_noise isnan draws size variance = Except.ok eps ∧
        (0 ≤ size.s0 ∧ 0 ≤ size.s1 ∧ 0 ≤ size.s2 →
          (eps.n0 : Int) = size.s0 ∧ (eps.n1 : Int) = size.s1 ∧ (eps.n2 : Int) = size.s2) ∧
        eps.WF ∧
        eps.data = (List.range (eps.n0 * eps.n1 * eps.n2)).map draws) ∧
    ((∃ e, generate_white_noise isnan draws size variance = Except.error e) ↔
      variance < 0 ∨
        ∃ p, p < size.s0.toNat * size.s1.toNat * size.s2.toNat ∧ isnan (draws p) = true) := by
  have heq := generate_white_noise_eq isnan draws size variance
  refine ⟨?_, ?_, ?_, ?_⟩
  · intro hv
    rw [heq, if_pos hv]
  · intro hv hn
    rw [heq, if_neg (not_lt.mpr hv), if_pos hn]
  · intro hv hn
    have hn' : ¬ ∃ p, p < size.s0.toNat * size.s1.toNat * size.s2.toNat ∧
        isnan (draws p) = true := by
      rintro ⟨p, hp, h⟩
      rw [hn p hp] at h
      exact Bool.false_ne_true h
    refine ⟨_, by rw [heq, if_neg (not_lt.mpr hv), if_neg hn'], ?_, ?_, rfl⟩
    · rintro ⟨h0, h1, h2⟩
      exact ⟨Int.toNat_of_nonneg h0, Int.toNat_of_nonneg h1, Int.toNat_of_nonneg h2⟩
    · simp [Array3.WF]
  · rw [heq]
    by_cases hv : variance < 0
    · rw [if_pos hv]
      exact ⟨fun _ => Or.inl hv, fun _ => ⟨_, rfl⟩⟩
    · rw [if_neg hv]
      by_cases hn : ∃ p, p < size.s0.toNat * size.s1.toNat * size.s2.toNat ∧
          isnan (draws p) = true
      · rw [if_pos hn]
        exact ⟨fun _ => Or.inr hn, fun _ => ⟨_, rfl⟩⟩
      · rw [if_neg hn]
        constructor
        · rintro ⟨e, he⟩
          cases he
        · rintro (h | h)
          · exact absurd h hv
          · exact absurd h hn

/-- Claim C10 for rational samples, shape `(1,2,2)`, variance `1` and the draws
`0, 1, 2, 3` of which none is flagged as NaN. -/
theorem generate_white_noise_cases_witness :
    ∃ eps, generate_white_noise (fun q : ℚ => q == 7) (fun p : Nat => (p : ℚ)) ⟨1, 2, 2⟩ 1 =
        Except.ok eps ∧
      ((eps.n0 : Int) = 1 ∧ (eps.n1 : Int) = 2 ∧ (eps.n2 : Int) = 2) ∧
      eps.data = (List.range (eps.n0 * eps.n1 * eps.n2)).map (fun p : Nat => (p : ℚ)) := by
  obtain ⟨eps, heps, hshape, -, hdata⟩ :=
    (generate_white_noise_cases (fun q : ℚ => q == 7) (fun p : Nat => (p : ℚ)) ⟨1, 2, 2⟩ 1).2.2.1
      (by norm_num)
      (by
        intro p hp
        have hp4 : p < 4 := hp
        interval_cases p <;> simp)
  exact ⟨eps, heps, hshape ⟨by decide, by decide, by decide⟩, hdata⟩

end driver_proofs


section checked_proofs

/-- A loop whose body never throws on states satisfying an invariant runs like the pure
loop. -/
theorem for_loop_ok {σ : Type} (P : σ → Prop) (body : Nat → σ → Except Error σ)
    (step : Nat → σ → σ) (n : Nat)
    (h : ∀ k, k < n → ∀ s, P s → body k s = Except.ok (step k s) ∧ P (step k s))
    (init : σ) (h0 : P init) :
    for_loop n body init = Except.ok (for_pure n step init) ∧ P (for_pure n step init) := by
  induction n with
  | zero => exact ⟨rfl, h0⟩
  | succ n ih =>
    obtain ⟨h1, h2⟩ := ih (fun k hk => h k (by omega))
    rw [for_loop_succ, h1, for_pure_succ]
    exact h n (by omega) _ h2

theorem Array3.read_ok (a : Array3 ℚ) (i j k : Nat) (hi : i < a.n0) (hj : j < a.n1)
    (hk : k < a.n2) : a.read i j k = Except.ok (a.get i j k) := by
  unfold Array3.read
  rw [if_pos (by omega)]
  rfl

theorem Array3.read_sub_ok (a : Array3 ℚ) (t x y k i j : Nat) (ht : t < a.n0) (hx : x < a.n1)
    (hy : y < a.n2) (hk : k ≤ t) (hi : i ≤ x) (hj : j ≤ y) :
    a.read ((t : Int) - k) ((x : Int) - i) ((y : Int) - j) =
      Except.ok (a.get (t - k) (x - i) (y - j)) := by
  unfold Array3.read
  rw [if_pos (by omega)]
  have e1 : ((t : Int) - k).toNat = t - k := by omega
  have e2 : ((x : Int) - i).toNat = x - i := by omega
  have e3 : ((y : Int) - j).toNat = y - j := by omega
  rw [e1, e2, e3]
  rfl

theorem zeta_sum_checked_ok (phi zeta : Array3 ℚ) (t x y : Nat) (ht : t < zeta.n0)
    (hx : x < zeta.n1) (hy : y < zeta.n2) :
    zeta_sum_checked phi zeta t x y = Except.ok (zeta_sum phi zeta t x y) := by
  unfold zeta_sum_checked zeta_sum
  refine (for_loop_ok (fun _ => True) _ _ _ ?_ 0 trivial).1
  intro k hk s _
  refine ⟨?_, trivial⟩
  refine (for_loop_ok (fun _ => True) _ _ _ ?_ s trivial).1
  intro i hi s _
  refine ⟨?_, trivial⟩
  refine (for_loop_ok (fun _ => True) _ _ _ ?_ s trivial).1
  intro j hj s _
  refine ⟨?_, trivial⟩
  rw [Array3.read_ok phi k i j (by omega) (by omega) (by omega),
    Array3.read_sub_ok zeta t x y k i j ht hx hy (by omega) (by omega) (by omega)]
  rfl

theorem zeta_cell_checked_ok (phi zeta : Array3 ℚ) (t x y : Nat) (ht : t < zeta.n0)
    (hx : x < zeta.n1) (hy : y < zeta.n2) :
    zeta_cell_checked phi zeta t x y = Except.ok (zeta_cell phi zeta t x y) := by
  unfold zeta_cell_checked zeta_cell
  rw [zeta_sum_checked_ok phi zeta t x y ht hx hy]
  show Array3.add_at zeta t x y _ = _
  unfold Array3.add_at
  rw [if_pos (by omega)]
  rfl

/-- The range-checked run of `generate_zeta` never stops at a range check and leaves
the tensor that `generate_zeta` leaves. -/
theorem generate_zeta_checked_ok (phi zeta : Array3 ℚ) :
    generate_zeta_checked phi zeta = Except.ok (generate_zeta phi zeta) := by
  unfold generate_zeta_checked generate_zeta
  refine (for_loop_ok
    (fun z : Array3 ℚ => z.n0 = zeta.n0 ∧ z.n1 = zeta.n1 ∧ z.n2 = zeta.n2) _ _ _ ?_ zeta
    ⟨rfl, rfl, rfl⟩).1
  intro t ht z hz
  refine for_loop_ok
    (fun z : Array3 ℚ => z.n0 = zeta.n0 ∧ z.n1 = zeta.n1 ∧ z.n2 = zeta.n2) _ _ _ ?_ z hz
  intro x hx z hz
  refine for_loop_ok
    (fun z : Array3 ℚ => z.n0 = zeta.n0 ∧ z.n1 = zeta.n1 ∧ z.n2 = zeta.n2) _ _ _ ?_ z hz
  intro y hy z hz
  exact ⟨zeta_cell_checked_ok phi z t x y (by omega) (by omega) (by omega), hz⟩

end checked_proofs

section bounds_claims

/-- Claim C13: for every AR coefficient tensor `phi` of shape `(f0,f1,f2)` and every tensor
`zeta` of shape `(T,X,Y)`, every array access performed by `generate_zeta` is in bounds:
the range-checked run never stops at a range check and leaves the same tensor, and for each
cell `(t,x,y)` and each `(k,i,j)` visited by the inner loops, `0 ≤ k < f0`, `0 ≤ i < f1`,
`0 ≤ j < f2`, `0 ≤ t-k < T`, `0 ≤ x-i < X`, `0 ≤ y-j < Y` with the differences taken in
`int` (no index is negative or wraps, also when the tensor is smaller than the filter). -/
theorem generate_zeta_in_bounds (phi zeta : Array3 ℚ) :
    generate_zeta_checked phi zeta = Except.ok (generate_zeta phi zeta) ∧
    ∀ t x y, t < zeta.n0 → x < zeta.n1 → y < zeta.n2 →
      ∀ k i j, k < min (t + 1) phi.n0 → i < min (x + 1) phi.n1 → j < min (y + 1) phi.n2 →
        ((0 : Int) ≤ k ∧ (k : Int) < phi.n0 ∧ (0 : Int) ≤ i ∧ (i : Int) < phi.n1 ∧
          (0 : Int) ≤ j ∧ (j : Int) < phi.n2) ∧
        ((0 : Int) ≤ (t : Int) - k ∧ (t : Int) - k < zeta.n0 ∧
          (0 : Int) ≤ (x : Int) - i ∧ (x : Int) - i < zeta.n1 ∧
          (0 : Int) ≤ (y : Int) - j ∧ (y : Int) - j < zeta.n2) ∧
        (0 ≤ (t : Int) ∧ (t : Int) < zeta.n0 ∧ 0 ≤ (x : Int) ∧ (x : Int) < zeta.n1 ∧
          0 ≤ (y : Int) ∧ (y : Int) < zeta.n2) := by
  refine ⟨generate_zeta_checked_ok phi zeta, ?_⟩
  intro t x y ht hx hy k i j hk hi hj
  refine ⟨?_, ?_, ?_⟩ <;> omega

/-- Claim C13 at a `2×2×1` filter and a `1×1×1` tensor, which is smaller than the filter:
the range-checked run succeeds and the single visited index is in bounds. -/
theorem generate_zeta_in_bounds_witness :
    generate_zeta_checked ⟨2, 2, 1, [0, 1 / 2, 1 / 3, 1 / 4]⟩ ⟨1, 1, 1, [7]⟩ =
      Except.ok (generate_zeta ⟨2, 2, 1, [0, 1 / 2, 1 / 3, 1 / 4]⟩ ⟨1, 1, 1, [7]⟩) ∧
    ((0 : Int) ≤ ((0 : Nat) : Int) - ((0 : Nat) : Int) ∧
      ((0 : Nat) : Int) - ((0 : Nat) : Int) < ((1 : Nat) : Int)) := by
  have h := generate_zeta_in_bounds ⟨2, 2, 1, [0, 1 / 2, 1 / 3, 1 / 4]⟩ ⟨1, 1, 1, [7]⟩
  have hb := (h.2 0 0 0 (by decide) (by decide) (by decide) 0 0 0 (by decide) (by decide)
    (by decide)).2.1
  exact ⟨h.1, hb.1, hb.2.1⟩

/-- Claim C14: if the enlarged shape `(Z0,Z1,Z2)` and the final shape `(z0,z1,z2)` satisfy
`Z_a - z_a ≥ f_a - 1` on every axis (`f` the shape of `phi`), every cell kept by
`trim_zeta` was computed by `generate_zeta` with the full filter support: for a kept cell
`(t,x,y) = (i+Z0-z0, j+Z1-z1, k+Z2-z2)` of the enlarged tensor, `min(t+1,f0) = f0`,
`min(x+1,f1) = f1`, `min(y+1,f2) = f2`, so its value is the noise plus the sum over all of
`k < f0`, `i < f1`, `j < f2`; every cell with a clamped window lies in the discarded
region. -/
theorem trim_zeta_full_support (phi eps : Array3 ℚ) (hwf : eps.WF) (z0 z1 z2 : Nat)
    (h0 : 1 ≤ z0 ∧ z0 ≤ eps.n0) (h1 : 1 ≤ z1 ∧ z1 ≤ eps.n1) (h2 : 1 ≤ z2 ∧ z2 ≤ eps.n2)
    (hm0 : (eps.n0 : Int) - z0 ≥ (phi.n0 : Int) - 1)
    (hm1 : (eps.n1 : Int) - z1 ≥ (phi.n1 : Int) - 1)
    (hm2 : (eps.n2 : Int) - z2 ≥ (phi.n2 : Int) - 1) :
    ∃ r, trim_zeta (generate_zeta phi eps) ⟨z0, z1, z2⟩ = Except.ok r ∧
      (∀ i j k, i < z0 → j < z1 → k < z2 →
        (min (i + (eps.n0 - z0) + 1) phi.n0 = phi.n0 ∧
          min (j + (eps.n1 - z1) + 1) phi.n1 = phi.n1 ∧
          min (k + (eps.n2 - z2) + 1) phi.n2 = phi.n2) ∧
        r.get i j k =
          (generate_zeta phi eps).get (i + (eps.n0 - z0)) (j + (eps.n1 - z1))
            (k + (eps.n2 - z2)) ∧
        r.get i j k =
          eps.get (i + (eps.n0 - z0)) (j + (eps.n1 - z1)) (k + (eps.n2 - z2)) +
            ∑ a ∈ Finset.range phi.n0, ∑ b ∈ Finset.range phi.n1, ∑ c ∈ Finset.range phi.n2,
              phi.get a b c *
                (if a = 0 ∧ b = 0 ∧ c = 0 then
                  eps.get (i + (eps.n0 - z0)) (j + (eps.n1 - z1)) (k + (eps.n2 - z2))
                 else (generate_zeta phi eps).get (i + (eps.n0 - z0) - a)
                  (j + (eps.n1 - z1) - b) (k + (eps.n2 - z2) - c))) ∧
      ∀ t x y, t < eps.n0 → x < eps.n1 → y < eps.n2 →
        (min (t + 1) phi.n0 < phi.n0 ∨ min (x + 1) phi.n1 < phi.n1 ∨
          min (y + 1) phi.n2 < phi.n2) →
        t < eps.n0 - z0 ∨ x < eps.n1 - z1 ∨ y < eps.n2 - z2 := by
  obtain ⟨s0, s1, s2⟩ := generate_zeta_shape phi eps
  obtain ⟨-, -, hdone, -⟩ := generate_zeta_inv phi eps hwf
  obtain ⟨r, hr, -, -, hg⟩ := trim_zeta_spec (generate_zeta phi eps) z0 z1 z2
    (by rw [s0]; exact h0) (by rw [s1]; exact h1) (by rw [s2]; exact h2)
  rw [s0, s1, s2] at hg
  refine ⟨r, hr, ?_, ?_⟩
  · intro i j k hi hj hk
    have m0 : min (i + (eps.n0 - z0) + 1) phi.n0 = phi.n0 := by omega
    have m1 : min (j + (eps.n1 - z1) + 1) phi.n1 = phi.n1 := by omega
    have m2 : min (k + (eps.n2 - z2) + 1) phi.n2 = phi.n2 := by omega
    refine ⟨⟨m0, m1, m2⟩, hg i j k hi hj hk, ?_⟩
    rw [hg i j k hi hj hk]
    have hrec := hdone (i + (eps.n0 - z0)) (j + (eps.n1 - z1)) (k + (eps.n2 - z2))
      (by omega) (by omega)
      (lin_lt (by omega : i + (eps.n0 - z0) < eps.n0) (by omega) (by omega))
    rw [hrec]
    unfold zeta_recurrence
    rw [m0, m1, m2]
  · intro t x y ht hx hy hclamp
    omega

/-- Claim C14 at a `2×1×1` filter, a `3×1×1` noise tensor and the final shape `(2,1,1)`:
the margin `3 - 2 = 1` equals `f0 - 1`, and the first kept cell is cell `1` of the enlarged
tensor, computed with both filter taps. -/
theorem trim_zeta_full_support_witness :
    ∃ r, trim_zeta (generate_zeta ⟨2, 1, 1, [0, 1 / 2]⟩ ⟨3, 1, 1, [1, 2, 3]⟩) ⟨2, 1, 1⟩ =
        Except.ok r ∧
      min (0 + (3 - 2) + 1) 2 = 2 ∧
      r.get 0 0 0 = (generate_zeta ⟨2, 1, 1, [0, 1 / 2]⟩ ⟨3, 1, 1, [1, 2, 3]⟩).get 1 0 0 := by
  obtain ⟨r, hr, hkept, -⟩ := trim_zeta_full_support ⟨2, 1, 1, [0, 1 / 2]⟩
    ⟨3, 1, 1, [1, 2, 3]⟩ (by decide) 2 1 1 ⟨by decide, by decide⟩ ⟨by decide, by decide⟩
    ⟨by decide, by decide⟩ (by decide) (by decide) (by decide)
  obtain ⟨hmin, hget, -⟩ := hkept 0 0 0 (by decide) (by decide) (by decide)
  exact ⟨r, hr, hmin.1, hget⟩

end bounds_claims

section stats_claims

theorem zipWith_mul_sum (a b : List ℚ) (n : Nat) (ha : a.length = n) (hb : b.length = n) :
    (List.zipWith (fun x y => x * y) a b).sum =
      ∑ p ∈ Finset.range n, a.getD p 0 * b.getD p 0 := by
  induction a generalizing b n with
  | nil =>
    subst ha
    simp
  | cons x a ih =>
    cases b with
    | nil =>
      subst ha
      simp at hb
    | cons y b =>
      obtain ⟨n, rfl⟩ : ∃ n', n = n' + 1 := ⟨a.length, by simp at ha; omega⟩
      have ha' : a.length = n := by simpa using ha
      have hb' : b.length = n := by simpa using hb
      rw [Finset.sum_range_succ', List.zipWith_cons_cons, List.sum_cons, ih b n ha' hb']
      simp only [List.getD_cons_succ, List.getD_cons_zero]
      ring

theorem sum_range_mul (f : Nat → ℚ) (a b : Nat) :
    ∑ p ∈ Finset.range (a * b), f p =
      ∑ i ∈ Finset.range a, ∑ j ∈ Finset.range b, f (i * b + j) := by
  induction a with
  | zero => simp
  | succ a ih =>
    rw [Nat.succ_mul, Finset.sum_range_add, ih, Finset.sum_range_succ]

/-- A sum over the storage cells is the sum over the cells of the shape. -/
theorem sum_storage_eq_sum_cells (f : Nat → ℚ) (n0 n1 n2 : Nat) :
    ∑ p ∈ Finset.range (n0 * n1 * n2), f p =
      ∑ i ∈ Finset.range n0, ∑ j ∈ Finset.range n1, ∑ k ∈ Finset.range n2,
        f ((i * n1 + j) * n2 + k) := by
  rw [sum_range_mul f (n0 * n1) n2, sum_range_mul _ n0 n1]

/-- Claim C11: for an AR coefficient tensor and an ACF tensor of the same shape (exact
arithmetic), `white_noise_variance(ar_coefs, acf)` is `acf(0,0,0)` minus the sum over all
indices of `ar_coefs(i,j,k) * acf(i,j,k)`, so that the variance plus that sum gives back
`acf(0,0,0) = ACF_variance(acf)`. -/
theorem white_noise_variance_formula (ar_coefs acf : Array3 ℚ)
    (hshape : ar_coefs.n0 = acf.n0 ∧ ar_coefs.n1 = acf.n1 ∧ ar_coefs.n2 = acf.n2)
    (har : ar_coefs.WF) (hacf : acf.WF) :
    white_noise_variance ar_coefs acf =
      acf.get 0 0 0 -
        ∑ i ∈ Finset.range acf.n0, ∑ j ∈ Finset.range acf.n1, ∑ k ∈ Finset.range acf.n2,
          ar_coefs.get i j k * acf.get i j k ∧
    white_noise_variance ar_coefs acf +
        ∑ i ∈ Finset.range acf.n0, ∑ j ∈ Finset.range acf.n1, ∑ k ∈ Finset.range acf.n2,
          ar_coefs.get i j k * acf.get i j k = ACF_variance acf := by
  obtain ⟨s0, s1, s2⟩ := hshape
  have har' : ar_coefs.data.length = acf.n0 * acf.n1 * acf.n2 := by
    rw [← s0, ← s1, ← s2]; exact har
  have hsum : (List.zipWith (fun a b => a * b) ar_coefs.data acf.data).sum =
      ∑ i ∈ Finset.range acf.n0, ∑ j ∈ Finset.range acf.n1, ∑ k ∈ Finset.range acf.n2,
        ar_coefs.get i j k * acf.get i j k := by
    rw [zipWith_mul_sum _ _ _ har' hacf, sum_storage_eq_sum_cells]
    apply Finset.sum_congr rfl
    intro i _
    apply Finset.sum_congr rfl
    intro j _
    apply Finset.sum_congr rfl
    intro k _
    simp only [Array3.get, Array3.lin, s1, s2]
    rfl
  unfold white_noise_variance ACF_variance
  rw [hsum]
  exact ⟨rfl, by ring⟩

/-- Claim C11 at two `1×1×2` tensors: `1 - (0*1 + (1/2)*(1/2)) = 3/4`. -/
theorem white_noise_variance_formula_witness :
    white_noise_variance ⟨1, 1, 2, [0, 1 / 2]⟩ ⟨1, 1, 2, [1, 1 / 2]⟩ = 3 / 4 ∧
    white_noise_variance ⟨1, 1, 2, [0, 1 / 2]⟩ ⟨1, 1, 2, [1, 1 / 2]⟩ + 1 / 4 =
      ACF_variance ⟨1, 1, 2, [1, 1 / 2]⟩ := by
  obtain ⟨h1, h2⟩ := white_noise_variance_formula ⟨1, 1, 2, [0, 1 / 2]⟩
    ⟨1, 1, 2, [1, 1 / 2]⟩ ⟨rfl, rfl, rfl⟩ (by decide) (by decide)
  have hs : ∑ i ∈ Finset.range 1, ∑ j ∈ Finset.range 1, ∑ k ∈ Finset.range 2,
      (⟨1, 1, 2, [0, 1 / 2]⟩ : Array3 ℚ).get i j k *
        (⟨1, 1, 2, [1, 1 / 2]⟩ : Array3 ℚ).get i j k = 1 / 4 := by
    simp [Finset.sum_range_succ, Array3.get, Array3.lin]
    norm_num
  simp only [] at h1 h2
  rw [hs] at h1 h2
  refine ⟨?_, h2⟩
  rw [h1]
  simp [Array3.get, Array3.lin]
  norm_num

/-- What `variance` does establish: with at least two elements it returns the sum of the
squared deviations from the mean (sum of the elements over the element count) divided by
the element count less one, and on an empty array its guard fires. -/
theorem variance_spec (rhs : Array3 ℚ) :
    (2 ≤ rhs.numElements →
      mean rhs = rhs.data.sum / (rhs.numElements : ℚ) ∧
      variance rhs = Except.ok
        ((rhs.data.map (fun v => (v - mean rhs) ^ 2)).sum / ((rhs.numElements : ℚ) - 1))) ∧
    (rhs.numElements = 0 → variance rhs = Except.error Error.assertion_failed) := by
  constructor
  · intro h
    refine ⟨rfl, ?_⟩
    unfold variance
    rw [if_neg (by omega)]
    simp only [pure, Except.pure]
    congr 2
    push_cast
    rfl
  · intro h
    unfold variance
    rw [if_pos (by omega)]
    rfl

/-- On a single element the guard of `variance` does not fire: the mean is the element,
the sum of squares is `0` and the divisor `numElements() - 1` is `0`. -/
theorem variance_single (v : ℚ) :
    variance ⟨1, 1, 1, [v]⟩ = Except.ok (0 / (((1 : Int) - 1 : Int) : ℚ)) := by
  unfold variance mean
  simp [Array3.numElements, pure, Except.pure]

/-- Claim C12 at a failing input, the `1×1×1` array holding `5`: the guard
`numElements() > 0` passes, and `variance` returns the quotient of the sum of squares `0`
by the divisor `numElements() - 1 = 0` instead of failing. -/
theorem variance_single_element_not_guarded :
    (⟨1, 1, 1, [5]⟩ : Array3 ℚ).numElements = 1 ∧
    (((⟨1, 1, 1, [5]⟩ : Array3 ℚ).numElements : Int) - 1 = 0) ∧
    variance ⟨1, 1, 1, [5]⟩ = Except.ok ((0 : ℚ) / 0) ∧
    variance ⟨1, 1, 1, [5]⟩ ≠ Except.error Error.assertion_failed := by
  have h := variance_single 5
  refine ⟨rfl, by decide, ?_, ?_⟩
  · rw [h]
    simp
  · rw [h]
    simp

end stats_claims

end autoreg

